import Mathlib

/-!
Shallow embedding of the runbook analyzer, retrieval agent and chatbot
intent classifier (src/analyzer.py, src/agent.py, src/chatbot.py).
Text is modelled as `List Char`; Python character classes are modelled on
the character set the repository actually uses (ASCII plus the Unicode
whitespace code points Python treats as whitespace).  The source computes
scores in `float` arithmetic, but every value a dimension scorer can
produce is an integer (all constants and deductions are integers and the
clamps preserve them), represented exactly by a double; dimension scores
are therefore modelled as `Int`.  The overall score and the health-summary
averages divide, so they are modelled as `Rat`, again matching the
double arithmetic of the source exactly on all reachable values (quarters and
small averages are exact in binary floating point).
-/

set_option maxRecDepth 100000

namespace Runbook

/-- Python `str.isspace` / regex `\s` whitespace (the two sets agree). -/
def isPySpace (c : Char) : Bool :=
  c = ' ' || c = '\t' || c = '\n' || c = '\x0b' || c = '\x0c' || c = '\r' ||
  c = '\x1c' || c = '\x1d' || c = '\x1e' || c = '\x1f' || c = '\x85' || c = '\xa0' ||
  c = '\u1680' || ('\u2000' ≤ c && c ≤ '\u200A') || c = '\u2028' || c = '\u2029' ||
  c = '\u202F' || c = '\u205F' || c = '\u3000'

/-- The line boundaries recognised by Python `str.splitlines`. -/
def isLinebreak (c : Char) : Bool :=
  c = '\n' || c = '\x0b' || c = '\x0c' || c = '\r' ||
  c = '\x1c' || c = '\x1d' || c = '\x1e' || c = '\x85' || c = '\u2028' || c = '\u2029'

/-- Word characters of the token pattern `[a-zA-Z0-9_]+` in `RunbookAgent._tokens`;
also used as the model of regex `\b` boundaries (ASCII fragment of Python `\w`). -/
def isWordChar (c : Char) : Bool :=
  ('a' ≤ c && c ≤ 'z') || ('A' ≤ c && c ≤ 'Z') || ('0' ≤ c && c ≤ '9') || c = '_'

/-- ASCII fragment of Python `str.lower` (the vocabulary of the repository is ASCII). -/
def asciiLower (c : Char) : Char :=
  if 'A' ≤ c && c ≤ 'Z' then Char.ofNat (c.toNat + 32) else c

/-- Lowercase a character list. -/
def lowerL (l : List Char) : List Char := l.map asciiLower

/-- Drop the longest suffix whose characters satisfy `p`. -/
def dropTrailing (p : Char → Bool) (l : List Char) : List Char :=
  (l.reverse.dropWhile p).reverse

/-- Trim characters satisfying `p` from both ends (Python `str.strip(chars)`). -/
def trimBy (p : Char → Bool) (l : List Char) : List Char :=
  dropTrailing p (l.dropWhile p)

/-- Python `str.strip()` (no argument): trim whitespace from both ends. -/
def pyStrip (l : List Char) : List Char := trimBy isPySpace l

/-- The value normalization of `_parse_yaml_kv`:
`v.strip().strip(quote).strip(apos)` with `quote` the double-quote character
and `apos` the single-quote character. -/
def stripChain (l : List Char) : List Char :=
  trimBy (fun c => c = '\x27') (trimBy (fun c => c = '"') (pyStrip l))

/-- Substring test, Python `needle in hay`. -/
def containsSub (needle : List Char) : List Char → Bool
  | [] => needle.isEmpty
  | c :: rest => needle.isPrefixOf (c :: rest) || containsSub needle rest

/-- Split on `'\n'` only (model of line decomposition used for the
`re.MULTILINE` heading pattern, where `^`/`$` anchor at `'\n'` only). -/
def splitNlGo (acc : List Char) : List Char → List (List Char)
  | [] => [acc.reverse]
  | c :: rest =>
    if c = '\n' then acc.reverse :: splitNlGo [] rest
    else splitNlGo (c :: acc) rest

/-- Split on `'\n'`, keeping empty pieces (like Python `str.split`). -/
def splitNl (l : List Char) : List (List Char) := splitNlGo [] l

/-- Worker for `pySplitlines`: at a line break emit the piece and continue
after the break, treating `"\r\n"` as a single break and emitting no
trailing empty piece. -/
def pySplitlinesGo (acc : List Char) : List Char → List (List Char)
  | [] => [acc.reverse]
  | c :: rest =>
    if isLinebreak c then
      match rest with
      | [] => [acc.reverse]
      | d :: r =>
        if c = '\r' && d = '\n' then
          acc.reverse :: (match r with | [] => [] | _ :: _ => pySplitlinesGo [] r)
        else acc.reverse :: pySplitlinesGo [] (d :: r)
    else pySplitlinesGo (c :: acc) rest

/-- Python `str.splitlines`: split at line-break characters, treating `"\r\n"`
as one boundary and producing no trailing empty piece. -/
def pySplitlines (l : List Char) : List (List Char) :=
  match l with
  | [] => []
  | _ :: _ => pySplitlinesGo [] l

/-!
**Regex fragments**

The scorers and the intent classifier use a handful of fixed regular
expressions.  Each is modelled by a dedicated matcher over `List Char`.
-/

/-- `none`-safe word-character test for boundary checks. -/
def isWordCharO : Option Char → Bool
  | none => false
  | some c => isWordChar c

/-- Does `needle` occur in `hay` starting at index `i`, with a `\b` boundary on
both sides (previous and following characters, when they exist, are not word
characters)? -/
def wordAt (hay needle : List Char) (i : Nat) : Bool :=
  decide ((hay.drop i).take needle.length = needle) &&
  (i == 0 || !isWordCharO (hay.get? (i - 1))) &&
  !isWordCharO (hay.get? (i + needle.length))

/-- `re.search(r"\bNEEDLE\b", hay)` for a fixed literal `NEEDLE`
 (the literal may contain non-word characters such as `'-'` or `' '`). -/
def containsWordB (hay needle : List Char) : Bool :=
  (List.range (hay.length + 1)).any fun i => wordAt hay needle i

/-- Any alternative of a `\b(w1|w2|...)\b` pattern matches. -/
def anyWordB (hay : List Char) (needles : List (List Char)) : Bool :=
  needles.any fun n => containsWordB hay n

/-- `\bFIRST\s+SECOND\b` at index `i`: boundary, `first`, one or more
whitespace characters, `second`, boundary.  All uses have `second` starting
with a non-whitespace character, so the greedy `\s+` consumes exactly the
maximal whitespace run. -/
def gapWordAt (hay first second : List Char) (i : Nat) : Bool :=
  (i == 0 || !isWordCharO (hay.get? (i - 1))) &&
  decide ((hay.drop i).take first.length = first) &&
  (let afterFirst := hay.drop (i + first.length)
   let ws := afterFirst.takeWhile isPySpace
   let rest := afterFirst.dropWhile isPySpace
   !ws.isEmpty && second.isPrefixOf rest &&
   !isWordCharO (rest.get? second.length))

/-- `re.search` for a `\bFIRST\s+SECOND\b` pattern. -/
def containsGapWordB (hay first second : List Char) : Bool :=
  (List.range (hay.length + 1)).any fun i => gapWordAt hay first second i

/-- `re.search(r"trigger\s*criteria", hay)` (no word boundaries, `\s*` allows
an empty gap; `"criteria"` starts with a non-whitespace character, so the
greedy `\s*` consumes exactly the maximal whitespace run). -/
def containsTriggerCriteria (hay : List Char) : Bool :=
  (List.range (hay.length + 1)).any fun i =>
    decide ((hay.drop i).take 7 = ('t' :: 'r' :: 'i' :: 'g' :: 'g' :: 'e' :: 'r' :: [])) &&
    ('c' :: 'r' :: 'i' :: 't' :: 'e' :: 'r' :: 'i' :: 'a' :: []).isPrefixOf
      ((hay.drop (i + 7)).dropWhile isPySpace)

/-- `re.match(r"^\s*(\d+\.|\-|\*)\s+", line)`: optional leading whitespace,
then a numbered-list marker `digits '.'` or a bullet `-`/`*`, then at least
one whitespace character. -/
def isStepLine (line : List Char) : Bool :=
  match line.dropWhile isPySpace with
  | [] => false
  | c :: rest =>
    if c = '-' || c = '*' then
      match rest with
      | [] => false
      | d :: _ => isPySpace d
    else if c.isDigit then
      match rest.dropWhile Char.isDigit with
      | '.' :: d :: _ => isPySpace d
      | _ => false
    else false

/-- One line of the `re.MULTILINE` heading pattern
`^\s*##\s+(.+?)\s*$`: leading whitespace, `##`, at least one whitespace
character, then at least one further character; the returned heading is the
remainder with surrounding whitespace stripped (the regex capture, after the
`h.strip()` the analyzer applies). -/
def headingOf (line : List Char) : Option (List Char) :=
  match line.dropWhile isPySpace with
  | '#' :: '#' :: c :: d :: rest =>
    if isPySpace c then some (pyStrip (c :: d :: rest)) else none
  | _ => none

/-- The heading list of the analyzer: captures of the `_H2_RE` pattern over the
body, stripped and lowercased. -/
def headingsOf (body : List Char) : List (List Char) :=
  (splitNl body).filterMap fun line => (headingOf line).map lowerL

/-!
**Frontmatter parsing**

`_YAML_FRONTMATTER_RE = ^\s*---\s*\n(.*?)\n---\s*\n` with `re.DOTALL`,
applied with `.match` (anchored at the start).  The matchers below reproduce
the backtracking behaviour of the Python engine:

* `^\s*---`: the leading `\s*` must consume the entire maximal whitespace
  run (the characters it could give back are whitespace, never `'-'`).
* `---\s*\n`: the greedy `\s*` first tries to end at the last `'\n'` of the
  whitespace run that follows; on failure of the remainder of the pattern it
  retreats to earlier `'\n'`s of the run (`nlCandidates` lists the
  positions, latest first).
* `(.*?)` is lazy: the earliest closing `\n---\s*\n` wins (`scanClose`).
-/

/-- After `"---"`, consume `\s*\n` greedily: if the maximal whitespace run
starting `l` contains a `'\n'`, return the suffix after the last one. -/
def afterLastNlOfRun : List Char → Option (List Char)
  | [] => none
  | c :: rest =>
    if c = '\n' then
      match afterLastNlOfRun rest with
      | some r => some r
      | none => some rest
    else if isPySpace c then afterLastNlOfRun rest
    else none

/-- All suffixes after a `'\n'` of the leading whitespace run, ordered from
the last `'\n'` to the first (the order the backtracking engine tries). -/
def nlCandidates : List Char → List (List Char)
  | [] => []
  | c :: rest =>
    if c = '\n' then nlCandidates rest ++ [rest]
    else if isPySpace c then nlCandidates rest
    else []

/-- Scan for the earliest closing `\n---\s*\n`.  Returns the group matched by
`(.*?)` (the accumulated characters) and the text after the match end. -/
def scanClose (acc : List Char) : List Char → Option (List Char × List Char)
  | [] => none
  | c :: rest =>
    if c = '\n' then
      match rest with
      | '-' :: '-' :: '-' :: rest2 =>
        match afterLastNlOfRun rest2 with
        | some body => some (acc.reverse, body)
        | none => scanClose (c :: acc) rest
      | _ => scanClose (c :: acc) rest
    else scanClose (c :: acc) rest

/-- Try the group-start candidates in backtracking order. -/
def tryCandidates : List (List Char) → Option (List Char × List Char)
  | [] => none
  | s :: rest =>
    match scanClose [] s with
    | some r => some r
    | none => tryCandidates rest

/-- The raw frontmatter match: `some (group, body)` when the
`_YAML_FRONTMATTER_RE` pattern matches at the start of `content`. -/
def frontmatterMatch (content : List Char) : Option (List Char × List Char) :=
  match content.dropWhile isPySpace with
  | '-' :: '-' :: '-' :: rest => tryCandidates (nlCandidates rest)
  | _ => none

/-- Metadata: a Python `dict` of string keys and values, modelled as an
association list in insertion order with unique keys. -/
abbrev Meta := List (List Char × List Char)

/-- Python `meta[k] = v`: overwrite in place if the key exists (the entry
keeps its original position), else append. -/
def dictInsert (m : Meta) (k v : List Char) : Meta :=
  match m with
  | [] => [(k, v)]
  | (k0, v0) :: rest =>
    if k0 = k then (k0, v) :: rest else (k0, v0) :: dictInsert rest k v

/-- `meta.get(k)`: first (unique) value for `k`. -/
def dictGet (m : Meta) (k : List Char) : Option (List Char) :=
  match m with
  | [] => none
  | (k0, v0) :: rest => if k0 = k then some v0 else dictGet rest k

/-- Truthiness of `metadata.get(k)`: key present with a non-empty value. -/
def metaTruthy (m : Meta) (k : List Char) : Bool :=
  match dictGet m k with
  | none => false
  | some v => !v.isEmpty

/-- One line of `_parse_yaml_kv`: strip, skip blank and `#`-comment lines and
lines without a colon, split at the first colon, strip the key, and normalize
the value (`strip()` then strip double quotes then strip single quotes). -/
def parseKvLine (line : List Char) : Option (List Char × List Char) :=
  let l := pyStrip line
  match l with
  | [] => none
  | c :: _ =>
    if c = '#' then none
    else if !l.contains ':' then none
    else
      some (pyStrip (l.takeWhile fun d => d ≠ ':'),
            stripChain ((l.dropWhile fun d => d ≠ ':').drop 1))

/-- `RunbookAnalyzer._parse_yaml_kv`. -/
def parse_yaml_kv (raw : List Char) : Meta :=
  (pySplitlines raw).foldl
    (fun m line =>
      match parseKvLine line with
      | none => m
      | some (k, v) => dictInsert m k v)
    []

/-- `RunbookAnalyzer._parse_frontmatter`. -/
def parse_frontmatter (content : List Char) : Meta × List Char :=
  match frontmatterMatch content with
  | none => ([], content)
  | some (group, body) => (parse_yaml_kv group, body)

/-!
**The four dimension scorers (`RunbookAnalyzer._score_*`)**

Each returns `(score, issues, recommendations)`.  The `re.I` searches are
modelled by searching lowercase literals in the lowercased body.
-/

/-- ASCII uppercase of a character. -/
def asciiUpper (c : Char) : Char :=
  if 'a' ≤ c && c ≤ 'z' then Char.ofNat (c.toNat - 32) else c

/-- Python `str.title` restricted to the single lowercase words it is applied
to (the required section names): capitalize the first character. -/
def pyCapitalize : List Char → List Char
  | [] => []
  | c :: rest => asciiUpper c :: rest

/-- `RunbookAnalyzer.REQUIRED_SECTIONS`. -/
def requiredSections : List (List Char) :=
  ["diagnosis".data, "remediation".data, "rollback".data]

/-- `RunbookAnalyzer.REQUIRED_METADATA_KEYS`. -/
def requiredMetadataKeys : List (List Char) :=
  ["title".data, "version".data, "service_owner".data, "severity".data,
   "trigger_criteria".data]

/-- `RunbookAnalyzer._score_completeness`. -/
def score_completeness (metadata : Meta) (body : List Char)
    (headings : List (List Char)) : Int × List String × List String :=
  let lbody := lowerL body
  let c1 := metaTruthy metadata "trigger_criteria".data || containsTriggerCriteria lbody
  let c2 := requiredSections.all fun s => headings.contains s
  let c3 := anyWordB lbody
    ["validate".data, "verification".data, "verify".data, "confirm".data, "check".data]
  let c4 := metaTruthy metadata "service_owner".data ||
    anyWordB lbody
      ["escalat".data, "on-call".data, "on call".data, "owner".data, "contact".data]
  let missing := requiredSections.filter fun s => !headings.contains s
  let score : Int := (if c1 then 25 else 0) + (if c2 then 25 else 0) +
    (if c3 then 25 else 0) + (if c4 then 25 else 0)
  let issues : List String :=
    (if c1 then [] else ["Missing trigger criteria (when to use this runbook)."]) ++
    (if c2 then [] else
      ["Missing required sections: " ++
        String.intercalate ", " (missing.map fun s => String.mk (pyCapitalize s)) ++ "."]) ++
    (if c3 then [] else ["No explicit validation/verification steps found."]) ++
    (if c4 then [] else ["No service owner / escalation contact found."])
  let recs : List String :=
    (if c1 then [] else
      ["Add `trigger_criteria` in frontmatter and describe clear activation conditions."]) ++
    (if c2 then [] else
      ["Add the missing required sections: Diagnosis, Remediation, Rollback."]) ++
    (if c3 then [] else
      ["Add a \x27Validation\x27 step after remediation to confirm the issue is resolved."]) ++
    (if c4 then [] else
      ["Add `service_owner` in frontmatter and escalation/on-call contact info."])
  (score, issues, recs)

/-- `RunbookAnalyzer._score_structure` (takes the body like the source, but
only metadata and headings are consulted). -/
def score_structure (metadata : Meta) (_body : List Char)
    (headings : List (List Char)) : Int × List String × List String :=
  let missingKeys := requiredMetadataKeys.filter fun k => !metaTruthy metadata k
  let s1 : Int :=
    if !metadata.isEmpty then
      if !missingKeys.isEmpty then 40 - min 40 (8 * (missingKeys.length : Int)) else 40
    else 0
  let s2 : Int := if !headings.isEmpty then 30 else 0
  let s3 : Int := if metaTruthy metadata "version".data then 15 else 0
  let s4 : Int := if metaTruthy metadata "service_owner".data then 15 else 0
  let issues : List String :=
    (if !metadata.isEmpty then
      (if !missingKeys.isEmpty then
        ["Frontmatter is missing keys: " ++
          String.intercalate ", " (missingKeys.map String.mk) ++ "."]
       else [])
     else ["Missing YAML frontmatter metadata block."]) ++
    (if !headings.isEmpty then [] else
      ["No H2 sections (##) detected; runbook may be poorly structured."]) ++
    (if metaTruthy metadata "version".data then [] else ["No version found in metadata."]) ++
    (if metaTruthy metadata "service_owner".data then [] else
      ["No service owner found in metadata."])
  let recs : List String :=
    (if !metadata.isEmpty then
      (if !missingKeys.isEmpty then
        ["Add missing required frontmatter keys (title, version, service_owner, severity, trigger_criteria)."]
       else [])
     else ["Add a YAML frontmatter block (`--- ... ---`) with runbook metadata."]) ++
    (if !headings.isEmpty then [] else
      ["Use consistent headings like \x27## Diagnosis\x27, \x27## Remediation\x27, and \x27## Rollback\x27."]) ++
    (if metaTruthy metadata "version".data then [] else
      ["Add a `version` field in frontmatter for runbook change control."]) ++
    (if metaTruthy metadata "service_owner".data then [] else
      ["Add `service_owner` in frontmatter."])
  (min 100 (s1 + s2 + s3 + s4), issues, recs)

/-- The `destructive_patterns` list of `_score_safety`
 (`\brm\s+-rf\b`, `\b(drop\s+database|drop\s+table)\b`, `\b(delete\s+from)\b`,
 `\b(kill\s+-9)\b`, `\bshutdown\b`, `\breboot\b`). -/
def destructiveFound (lbody : List Char) : Bool :=
  containsGapWordB lbody "rm".data "-rf".data ||
  containsGapWordB lbody "drop".data "database".data ||
  containsGapWordB lbody "drop".data "table".data ||
  containsGapWordB lbody "delete".data "from".data ||
  containsGapWordB lbody "kill".data "-9".data ||
  containsWordB lbody "shutdown".data ||
  containsWordB lbody "reboot".data

/-- `RunbookAnalyzer._score_safety`. -/
def score_safety (body : List Char) (headings : List (List Char)) :
    Int × List String × List String :=
  let lbody := lowerL body
  let confirmVocab := anyWordB lbody
    ["confirm".data, "are you sure".data, "double-check".data, "double check".data,
     "approval".data]
  let d1 := destructiveFound lbody && !confirmVocab
  let d2 := !headings.contains "rollback".data
  let d3 := !anyWordB lbody ["safety".data, "warning".data, "caution".data]
  let score : Int :=
    100 - (if d1 then 35 else 0) - (if d2 then 40 else 0) - (if d3 then 15 else 0)
  let issues : List String :=
    (if d1 then
      ["Potentially destructive actions detected without an explicit confirmation/approval step."]
     else []) ++
    (if d2 then ["No rollback section found (required for safe operations)."] else []) ++
    (if d3 then ["No safety warnings/cautions found."] else [])
  let recs : List String :=
    (if d1 then ["Add a confirmation/approval step before any destructive command."] else []) ++
    (if d2 then ["Add a Rollback section with clear recovery steps."] else []) ++
    (if d3 then
      ["Add a short \x27Safety\x27 note (permissions, impact, maintenance window, backups)."]
     else [])
  (max 0 (min 100 score), issues, recs)

/-- `RunbookAnalyzer._score_clarity`.  The `ln.rstrip("\n")` of the source is
a no-op because `splitlines` pieces contain no newline. -/
def score_clarity (body : List Char) : Int × List String × List String :=
  let lines := pySplitlines body
  let nonEmpty := lines.filter fun ln => !(pyStrip ln).isEmpty
  if nonEmpty.isEmpty then
    (0, ["Runbook content is empty."], ["Add clear, step-by-step runbook content."])
  else
    let hasSteps := nonEmpty.any isStepLine
    let hasCodeFences := containsSub "```".data body
    let longLines := nonEmpty.filter fun ln => decide (ln.length > 140)
    let score : Int := (if hasSteps then 45 else 20) + (if hasCodeFences then 30 else 15) +
      (if longLines.length ≤ max 3 (nonEmpty.length / 10) then 25 else 10)
    let issues : List String :=
      (if hasSteps then [] else
        ["No step-by-step list detected (harder to follow during incidents)."]) ++
      (if hasCodeFences then [] else ["No fenced code blocks found for commands."]) ++
      (if !longLines.isEmpty then
        ["Runbook contains very long lines that may reduce readability."]
       else [])
    let recs : List String :=
      (if hasSteps then [] else
        ["Use numbered steps for Diagnosis/Remediation/Rollback procedures."]) ++
      (if hasCodeFences then [] else ["Wrap commands in fenced code blocks (```bash ... ```)."]) ++
      (if !longLines.isEmpty then
        ["Wrap long lines and keep steps concise (aim for <140 chars per line)."]
       else [])
    (min 100 score, issues, recs)

/-!
**Analysis aggregation (`analyze_runbook`, `analyze_all_runbooks`,**
`get_health_summary`)
-/

/-- The `RunbookAnalysis` dataclass. -/
structure RunbookAnalysis where
  filename : String
  overall_score : Rat
  completeness_score : Int
  structure_score : Int
  safety_score : Int
  clarity_score : Int
  issues : List String
  recommendations : List String
  metadata : Meta
deriving DecidableEq

/-- `RunbookAnalyzer.analyze_runbook`, with the file read modelled by passing
the document text directly (`filename` plays the role of
`os.path.basename(runbook_path)`). -/
def analyze_runbook (filename : String) (content : String) : RunbookAnalysis :=
  let parsed := parse_frontmatter content.data
  let metadata := parsed.1
  let body := parsed.2
  let headings := headingsOf body
  let compl := score_completeness metadata body headings
  let struc := score_structure metadata body headings
  let safe := score_safety body headings
  let clar := score_clarity body
  { filename := filename
    overall_score := ((compl.1 + struc.1 + safe.1 + clar.1 : Int) : Rat) / 4
    completeness_score := compl.1
    structure_score := struc.1
    safety_score := safe.1
    clarity_score := clar.1
    issues := compl.2.1 ++ struc.2.1 ++ safe.2.1 ++ clar.2.1
    recommendations := compl.2.2 ++ struc.2.2 ++ safe.2.2 ++ clar.2.2
    metadata := metadata }

/-- `name.lower().endswith(".md")`. -/
def endsWithMd (name : String) : Bool :=
  ".md".data.isSuffixOf (lowerL name.data)

/-- Python string comparison (lexicographic by code point), as a Bool. -/
def charListLt : List Char → List Char → Bool
  | _, [] => false
  | [], _ :: _ => true
  | a :: as, b :: bs => a < b || (a = b && charListLt as bs)

/-- Insert an entry into a name-sorted list, before the first entry of
greater-or-equal name (so that the overall sort is stable, like Python
`sorted`). -/
def insertByName {α : Type} (x : String × α) :
    List (String × α) → List (String × α)
  | [] => [x]
  | y :: rest =>
    if charListLt y.1.data x.1.data then y :: insertByName x rest
    else x :: y :: rest

/-- Stable sort of directory entries by name (`sorted(os.listdir(...))`). -/
def sortByName {α : Type} : List (String × α) → List (String × α)
  | [] => []
  | x :: rest => insertByName x (sortByName rest)

/-- `RunbookAnalyzer.analyze_all_runbooks`.  The directory is modelled as
`none` when `os.path.isdir` is false, otherwise as the listing: each entry is
a name together with the outcome of reading and analyzing that file
 (`Except.error` models a raised exception, caught and skipped by the
`try/except/continue` of the source). -/
def analyze_all_runbooks (dir : Option (List (String × Except Unit String))) :
    List RunbookAnalysis :=
  match dir with
  | none => []
  | some entries =>
    ((sortByName entries).filter fun e => endsWithMd e.1).filterMap fun e =>
      match e.2 with
      | .ok content => some (analyze_runbook e.1 content)
      | .error _ => none

/-- The health-summary dictionary returned by `get_health_summary`. -/
structure HealthSummary where
  overall_health : Rat
  average_completeness : Rat
  average_structure : Rat
  average_safety : Rat
  average_clarity : Rat
deriving DecidableEq

/-- `avg` helper of `get_health_summary`. -/
def avgR (vals : List Rat) : Rat := vals.sum / (vals.length : Rat)

/-- `RunbookAnalyzer.get_health_summary`. -/
def get_health_summary (analyses : List RunbookAnalysis) : HealthSummary :=
  if analyses.isEmpty then
    { overall_health := 0, average_completeness := 0, average_structure := 0,
      average_safety := 0, average_clarity := 0 }
  else
    { overall_health := avgR (analyses.map fun a => a.overall_score)
      average_completeness := avgR (analyses.map fun a => a.completeness_score)
      average_structure := avgR (analyses.map fun a => a.structure_score)
      average_safety := avgR (analyses.map fun a => a.safety_score)
      average_clarity := avgR (analyses.map fun a => a.clarity_score) }

/-!
**Retrieval (`RunbookAgent`) and intent classification (`RunbookChatbot`)**
-/

/-- Worker for `RunbookAgent._tokens`: `re.findall(r"[a-zA-Z0-9_]+", ...)`,
collecting maximal word-character runs (`cur` holds the current run,
reversed). -/
def tokensGo (cur : List Char) : List Char → List (List Char)
  | [] => if cur.isEmpty then [] else [cur.reverse]
  | c :: rest =>
    if isWordChar c then tokensGo (c :: cur) rest
    else if cur.isEmpty then tokensGo [] rest
    else cur.reverse :: tokensGo [] rest

/-- `RunbookAgent._tokens`: word-character runs of the lowercased text, with
runs shorter than 3 characters dropped. -/
def agentTokens (text : String) : List (List Char) :=
  (tokensGo [] (lowerL text.data)).filter fun t => t.length ≥ 3

/-- `RunbookAgent._keyword_score`: the number of alert tokens occurring
 (as substrings) in the lowercased document. -/
def keyword_score (alertTokens : List (List Char)) (content : String) : Nat :=
  alertTokens.countP fun t => !t.isEmpty && containsSub t (lowerL content.data)

/-- The running-best loop of `_find_best_runbook`: entries not ending in
`.md` are skipped; an entry replaces the current best only with a strictly
greater score. -/
def bestGo (toks : List (List Char)) :
    Nat × Option String → List (String × String) → Option String
  | best, [] => best.2
  | best, (name, content) :: rest =>
    if !endsWithMd name then bestGo toks best rest
    else
      let score := keyword_score toks content
      if best.1 < score then bestGo toks (score, some name) rest
      else bestGo toks best rest

/-- `RunbookAgent._find_best_runbook`.  The directory is `none` when
`os.path.isdir` fails; otherwise the listing, in iteration order (this
function does not sort), as (name, document text) pairs.  The returned name
plays the role of the returned path. -/
def find_best_runbook (alertText : String)
    (dir : Option (List (String × String))) : Option String :=
  match dir with
  | none => none
  | some entries => bestGo (agentTokens alertText) (0, none) entries

/-- Analysis vocabulary of `RunbookChatbot._detect_mode`:
`\b(analyz|health|score|review|assess|improv|recommend)\b`. -/
def analysisVocab : List (List Char) :=
  ["analyz".data, "health".data, "score".data, "review".data, "assess".data,
   "improv".data, "recommend".data]

/-- Incident vocabulary of `RunbookChatbot._detect_mode`:
`\b(incident|alert|error|failure|latency|timeout|crash|outage)\b`. -/
def incidentVocab : List (List Char) :=
  ["incident".data, "alert".data, "error".data, "failure".data, "latency".data,
   "timeout".data, "crash".data, "outage".data]

/-- `RunbookChatbot._detect_mode`. -/
def detect_mode (message : String) : String :=
  let m := lowerL message.data
  if anyWordB m analysisVocab then "analysis"
  else if anyWordB m incidentVocab then "incident"
  else "general"

/-!
**Theorems**
-/

/-- Each completeness check contributes 0 or 25. -/
theorem score_completeness_bounds (m : Meta) (b : List Char) (h : List (List Char)) :
    0 ≤ (score_completeness m b h).1 ∧ (score_completeness m b h).1 ≤ 100 := by
  unfold score_completeness
  dsimp only
  constructor <;> (split <;> split <;> split <;> split <;> norm_num)

/-- The structure score is clamped below 100 and its components cannot drive
it negative (the missing-key penalty is capped at the 40 just granted). -/
theorem score_structure_bounds (m : Meta) (b : List Char) (h : List (List Char)) :
    0 ≤ (score_structure m b h).1 ∧ (score_structure m b h).1 ≤ 100 := by
  unfold score_structure
  dsimp only
  constructor
  · refine le_min (by norm_num) ?_
    refine add_nonneg (add_nonneg (add_nonneg ?_ ?_) ?_) ?_
    · split
      · split
        · simp only [sub_nonneg]
          exact min_le_left _ _
        · norm_num
      · norm_num
    · split <;> norm_num
    · split <;> norm_num
    · split <;> norm_num
  · exact min_le_left _ _

/-- The safety score is clamped into `[0, 100]`. -/
theorem score_safety_bounds (b : List Char) (h : List (List Char)) :
    0 ≤ (score_safety b h).1 ∧ (score_safety b h).1 ≤ 100 := by
  unfold score_safety
  dsimp only
  constructor
  · exact le_max_left 0 _
  · refine max_le (by norm_num) ((min_le_left _ _).trans le_rfl)

/-- The clarity score is 0 on blank bodies and otherwise a clamped sum of
positive contributions. -/
theorem score_clarity_bounds (b : List Char) :
    0 ≤ (score_clarity b).1 ∧ (score_clarity b).1 ≤ 100 := by
  unfold score_clarity
  dsimp only
  split
  · norm_num
  · constructor
    · refine le_min (by norm_num) ?_
      refine add_nonneg (add_nonneg ?_ ?_) ?_ <;> (split <;> norm_num)
    · exact min_le_left _ _

/-- C1: for every document text, each of the four dimension scores returned
by `analyze_runbook` lies in `[0, 100]`, and the overall score equals the
arithmetic mean of the four dimension scores exactly. -/
theorem analyze_runbook_scores_valid (filename content : String) :
    (0 ≤ (analyze_runbook filename content).completeness_score ∧
      (analyze_runbook filename content).completeness_score ≤ 100) ∧
    (0 ≤ (analyze_runbook filename content).structure_score ∧
      (analyze_runbook filename content).structure_score ≤ 100) ∧
    (0 ≤ (analyze_runbook filename content).safety_score ∧
      (analyze_runbook filename content).safety_score ≤ 100) ∧
    (0 ≤ (analyze_runbook filename content).clarity_score ∧
      (analyze_runbook filename content).clarity_score ≤ 100) ∧
    (analyze_runbook filename content).overall_score =
      (((analyze_runbook filename content).completeness_score +
        (analyze_runbook filename content).structure_score +
        (analyze_runbook filename content).safety_score +
        (analyze_runbook filename content).clarity_score : Int) : Rat) / 4 := by
  unfold analyze_runbook
  dsimp only
  exact ⟨score_completeness_bounds _ _ _, score_structure_bounds _ _ _,
    score_safety_bounds _ _, score_clarity_bounds _, rfl⟩

/-- C10: the three safety deductions (35, 40, 15) sum to at most 90 from the
starting 100, so the safety score is always at least 10 and the lower clamp
to 0 is never binding: a safety score of 0 is unreachable. -/
theorem score_safety_at_least_ten (body : List Char) (headings : List (List Char)) :
    10 ≤ (score_safety body headings).1 ∧ (score_safety body headings).1 ≠ 0 := by
  have h10 : 10 ≤ (score_safety body headings).1 := by
    unfold score_safety
    dsimp only
    refine le_trans ?_ (le_max_right 0 _)
    refine le_min (by norm_num) ?_
    split <;> split <;> split <;> norm_num
  exact ⟨h10, by intro h0; rw [h0] at h10; norm_num at h10⟩

/-- C4: the empty document scores completeness 0, structure 0, safety 45
 (no destructive pattern is found, the missing rollback heading costs 40 and
the missing safety vocabulary costs 15) and clarity 0 through the
empty-content short circuit, whose issue list is exactly the single
"Runbook content is empty." entry. -/
theorem empty_document_scores :
    (analyze_runbook "empty.md" "").completeness_score = 0 ∧
    (analyze_runbook "empty.md" "").structure_score = 0 ∧
    (analyze_runbook "empty.md" "").safety_score = 45 ∧
    (analyze_runbook "empty.md" "").clarity_score = 0 ∧
    destructiveFound (lowerL "".data) = false ∧
    headingsOf "".data = [] ∧
    (score_clarity "".data).2.1 = ["Runbook content is empty."] := by
  refine ⟨?_, ?_, ?_, ?_, ?_, ?_, ?_⟩ <;> rfl

/-- C2 (failing input): the classifier regex `\b(analyz|…|improv|…)\b` places
a word boundary directly after the stems `analyz` and `improv`, so the word
"analyze" never matches the analysis alternation; the message
"Please analyze this alert for latency issues" therefore falls through to the
incident vocabulary ("alert", "latency") and is classified `incident`,
contradicting the documented precedence of analysis vocabulary. -/
theorem detect_mode_analyze_alert_is_incident :
    anyWordB (lowerL "Please analyze this alert for latency issues".data)
      analysisVocab = false ∧
    detect_mode "Please analyze this alert for latency issues" = "incident" := by
  refine ⟨?_, ?_⟩ <;> rfl

/-- A runbook satisfying every element the C3 claim lists: all five
frontmatter keys non-empty, H2 headings Diagnosis/Remediation/Rollback, a
numbered list, a fenced code block, a "Safety:" warning, a "Validation:"
step, no destructive pattern and no overlong line. -/
def docValidationLabel : String :=
  "---\ntitle: T\nversion: 1\nservice_owner: alice\nseverity: high\ntrigger_criteria: latency\n---\n## Diagnosis\n1. Look at logs\n```sh\ntail log\n```\n## Remediation\n1. Restart app\nSafety: be careful\n## Rollback\n1. Validation: observe dashboards\n"

/-- The same runbook with the validation step phrased with the vocabulary the
completeness scorer actually searches for (`verify`). -/
def docVerifyStep : String :=
  "---\ntitle: T\nversion: 1\nservice_owner: alice\nseverity: high\ntrigger_criteria: latency\n---\n## Diagnosis\n1. Look at logs\n```sh\ntail log\n```\n## Remediation\n1. Restart app\nSafety: be careful\n## Rollback\n1. Verify dashboards\n"

/-- C3 (counterexample): a document containing every element the claim lists
 — all five frontmatter keys non-empty, the three H2 sections, a numbered
list, a code fence, a "Safety:" warning and a "Validation:" step, no
destructive pattern, no long line — scores 100 on structure, safety and
clarity but only 75 on completeness: the validation vocabulary of the scorer
is `validate|verification|verify|confirm|check`, which the word "Validation"
does not match. -/
theorem validation_label_scores_75 :
    (requiredMetadataKeys.all fun k =>
      metaTruthy (parse_frontmatter docValidationLabel.data).1 k) = true ∧
    (requiredSections.all fun s =>
      (headingsOf (parse_frontmatter docValidationLabel.data).2).contains s) = true ∧
    containsSub "validation:".data (lowerL docValidationLabel.data) = true ∧
    containsSub "safety:".data (lowerL docValidationLabel.data) = true ∧
    containsSub "```".data (parse_frontmatter docValidationLabel.data).2 = true ∧
    destructiveFound (lowerL (parse_frontmatter docValidationLabel.data).2) = false ∧
    (analyze_runbook "db.md" docValidationLabel).structure_score = 100 ∧
    (analyze_runbook "db.md" docValidationLabel).safety_score = 100 ∧
    (analyze_runbook "db.md" docValidationLabel).clarity_score = 100 ∧
    (analyze_runbook "db.md" docValidationLabel).completeness_score = 75 := by
  refine ⟨?_, ?_, ?_, ?_, ?_, ?_, ?_, ?_, ?_, ?_⟩ <;> rfl

/-- If trigger criteria, all required sections, validation vocabulary and a
service owner are present, completeness is 100. -/
theorem score_completeness_eq_100 (m : Meta) (body : List Char) (hs : List (List Char))
    (h1 : metaTruthy m "trigger_criteria".data = true)
    (h2 : (requiredSections.all fun s => hs.contains s) = true)
    (h3 : anyWordB (lowerL body)
      ["validate".data, "verification".data, "verify".data, "confirm".data,
       "check".data] = true)
    (h4 : metaTruthy m "service_owner".data = true) :
    (score_completeness m body hs).1 = 100 := by
  unfold score_completeness
  simp only [h1, h2, h3, h4, Bool.true_or]
  norm_num

/-- If every required metadata key is truthy and a heading exists, structure
is 100. -/
theorem score_structure_eq_100 (m : Meta) (body : List Char) (hs : List (List Char))
    (hkeys : ∀ k ∈ requiredMetadataKeys, metaTruthy m k = true)
    (hhead : hs ≠ []) :
    (score_structure m body hs).1 = 100 := by
  have hmiss : (requiredMetadataKeys.filter fun k => !metaTruthy m k) = [] := by
    refine List.filter_eq_nil_iff.mpr fun k hk => ?_
    simp [hkeys k hk]
  have hm : ¬m.isEmpty = true := by
    intro he
    have h0 := hkeys "trigger_criteria".data (by simp [requiredMetadataKeys])
    cases m with
    | nil => simp [metaTruthy, dictGet] at h0
    | cons a l => simp [List.isEmpty] at he
  have hv := hkeys "version".data (by simp [requiredMetadataKeys])
  have ho := hkeys "service_owner".data (by simp [requiredMetadataKeys])
  unfold score_structure
  simp only [hmiss, hv, ho, List.isEmpty_nil, Bool.not_true, Bool.not_false]
  simp only [List.isEmpty_eq_true] at hm ⊢
  rw [if_pos (by simpa using hm)]
  have hh : (hs.isEmpty) = false := by
    cases hs with
    | nil => exact absurd rfl hhead
    | cons a l => rfl
  simp [hh]

/-- If the body has no unconfirmed destructive pattern, a rollback heading
and safety vocabulary, safety is 100. -/
theorem score_safety_eq_100 (body : List Char) (hs : List (List Char))
    (hdest : destructiveFound (lowerL body) = false)
    (hroll : hs.contains "rollback".data = true)
    (hvocab : anyWordB (lowerL body)
      ["safety".data, "warning".data, "caution".data] = true) :
    (score_safety body hs).1 = 100 := by
  unfold score_safety
  simp only [hdest, hroll, hvocab, Bool.false_and, Bool.not_true]
  norm_num

/-- If a step line, a code fence and no overlong line are present, clarity
is 100. -/
theorem score_clarity_eq_100 (body : List Char)
    (hsteps : (((pySplitlines body).filter fun ln =>
      !(pyStrip ln).isEmpty).any isStepLine) = true)
    (hfence : containsSub "```".data body = true)
    (hlong : (((pySplitlines body).filter fun ln =>
      !(pyStrip ln).isEmpty).filter fun ln => decide (ln.length > 140)) = []) :
    (score_clarity body).1 = 100 := by
  have hne : (((pySplitlines body).filter fun ln => !(pyStrip ln).isEmpty).isEmpty) = false := by
    rcases List.any_eq_true.mp hsteps with ⟨ln, hmem, _⟩
    cases hfe : ((pySplitlines body).filter fun ln => !(pyStrip ln).isEmpty) with
    | nil => rw [hfe] at hmem; cases hmem
    | cons a l => rfl
  unfold score_clarity
  simp only [hne, hsteps, hfence, hlong, Bool.false_eq_true, if_false, List.length_nil]
  rw [if_pos (Nat.zero_le _)]
  norm_num

/-- C3 (amended): a document whose frontmatter has all five required keys
non-empty, whose body has the H2 headings Diagnosis, Remediation and
Rollback, a numbered or bulleted step line, a fenced code block, safety
vocabulary (such as an explicit "Safety:" warning) and *validation
vocabulary* (one of validate / verification / verify / confirm / check —
rather than merely a "Validation:" label), with no destructive-action
pattern and no line longer than 140 characters, scores 100 on every one of
the four dimensions. -/
theorem perfect_runbook_scores_100 (filename content : String)
    (hkeys : ∀ k ∈ requiredMetadataKeys,
      metaTruthy (parse_frontmatter content.data).1 k = true)
    (hsect : (requiredSections.all fun s =>
      (headingsOf (parse_frontmatter content.data).2).contains s) = true)
    (hvalid : anyWordB (lowerL (parse_frontmatter content.data).2)
      ["validate".data, "verification".data, "verify".data, "confirm".data,
       "check".data] = true)
    (hsafe : anyWordB (lowerL (parse_frontmatter content.data).2)
      ["safety".data, "warning".data, "caution".data] = true)
    (hdest : destructiveFound (lowerL (parse_frontmatter content.data).2) = false)
    (hsteps : (((pySplitlines (parse_frontmatter content.data).2).filter fun ln =>
      !(pyStrip ln).isEmpty).any isStepLine) = true)
    (hfence : containsSub "```".data (parse_frontmatter content.data).2 = true)
    (hlong : (((pySplitlines (parse_frontmatter content.data).2).filter fun ln =>
      !(pyStrip ln).isEmpty).filter fun ln => decide (ln.length > 140)) = []) :
    (analyze_runbook filename content).completeness_score = 100 ∧
    (analyze_runbook filename content).structure_score = 100 ∧
    (analyze_runbook filename content).safety_score = 100 ∧
    (analyze_runbook filename content).clarity_score = 100 := by
  have htrig := hkeys "trigger_criteria".data (by simp [requiredMetadataKeys])
  have howner := hkeys "service_owner".data (by simp [requiredMetadataKeys])
  have hroll : ((headingsOf (parse_frontmatter content.data).2).contains
      "rollback".data) = true := by
    have := List.all_eq_true.mp hsect "rollback".data (by simp [requiredSections])
    simpa using this
  have hhne : headingsOf (parse_frontmatter content.data).2 ≠ [] := by
    intro he
    rw [he] at hroll
    simp [List.contains] at hroll
  unfold analyze_runbook
  dsimp only
  exact ⟨score_completeness_eq_100 _ _ _ htrig hsect hvalid howner,
    score_structure_eq_100 _ _ _ hkeys hhne,
    score_safety_eq_100 _ _ hdest hroll hsafe,
    score_clarity_eq_100 _ hsteps hfence hlong⟩

/-- Witness for the amended C3 at a concrete document (`docVerifyStep`):
all hypotheses hold and all four dimension scores are 100. -/
theorem perfect_runbook_scores_100_witness :
    (analyze_runbook "db.md" docVerifyStep).completeness_score = 100 ∧
    (analyze_runbook "db.md" docVerifyStep).structure_score = 100 ∧
    (analyze_runbook "db.md" docVerifyStep).safety_score = 100 ∧
    (analyze_runbook "db.md" docVerifyStep).clarity_score = 100 :=
  perfect_runbook_scores_100 "db.md" docVerifyStep
    (by decide) (by rfl) (by rfl) (by rfl) (by rfl) (by rfl) (by rfl) (by rfl)

/-- C9: the health summary of the empty result list has every field equal to
0 (and, the function being total, no exception is raised); on a non-empty
list every field is the arithmetic mean of the corresponding scores. -/
theorem get_health_summary_spec :
    (get_health_summary [] =
      { overall_health := 0, average_completeness := 0, average_structure := 0,
        average_safety := 0, average_clarity := 0 }) ∧
    ∀ l : List RunbookAnalysis, l ≠ [] →
      (get_health_summary l).overall_health =
        (l.map fun a => a.overall_score).sum / (l.length : Rat) ∧
      (get_health_summary l).average_completeness =
        (l.map fun a => (a.completeness_score : Rat)).sum / (l.length : Rat) ∧
      (get_health_summary l).average_structure =
        (l.map fun a => (a.structure_score : Rat)).sum / (l.length : Rat) ∧
      (get_health_summary l).average_safety =
        (l.map fun a => (a.safety_score : Rat)).sum / (l.length : Rat) ∧
      (get_health_summary l).average_clarity =
        (l.map fun a => (a.clarity_score : Rat)).sum / (l.length : Rat) := by
  refine ⟨rfl, fun l hl => ?_⟩
  have hne : l.isEmpty = false := by
    cases l with
    | nil => exact absurd rfl hl
    | cons a t => rfl
  unfold get_health_summary
  simp [hne, avgR]

/-- Witness for C9 at the one-element list of the empty-document analysis. -/
theorem get_health_summary_spec_witness :
    ([analyze_runbook "e.md" ""] : List RunbookAnalysis) ≠ [] ∧
    (get_health_summary [analyze_runbook "e.md" ""]).overall_health =
      (([analyze_runbook "e.md" ""].map fun a => a.overall_score).sum /
        (([analyze_runbook "e.md" ""] : List RunbookAnalysis).length : Rat)) :=
  ⟨by simp, (get_health_summary_spec.2 [analyze_runbook "e.md" ""] (by simp)).1⟩

/-- Membership is preserved by sorted insertion. -/
theorem mem_insertByName {α : Type} (x y : String × α) (l : List (String × α)) :
    x ∈ insertByName y l ↔ x = y ∨ x ∈ l := by
  induction l with
  | nil => simp [insertByName]
  | cons a t ih =>
    unfold insertByName
    split
    · simp only [List.mem_cons, ih]
      tauto
    · simp only [List.mem_cons]

/-- Membership is preserved by the stable name sort. -/
theorem mem_sortByName {α : Type} (x : String × α) (l : List (String × α)) :
    x ∈ sortByName l ↔ x ∈ l := by
  induction l with
  | nil => simp [sortByName]
  | cons a t ih => simp [sortByName, mem_insertByName, ih]

/-- C7: batch analysis is total (it cannot raise); a missing directory gives
the empty list; every `.md` entry whose read-and-analyze succeeds contributes
its analysis to the result even when other entries fail; and every element of
the result comes from some successfully analyzed `.md` entry (failing entries
and entries without the `.md` extension contribute nothing). -/
theorem analyze_all_runbooks_spec :
    analyze_all_runbooks none = [] ∧
    (∀ (entries : List (String × Except Unit String)) (name content : String),
      (name, Except.ok content) ∈ entries → endsWithMd name = true →
      analyze_runbook name content ∈ analyze_all_runbooks (some entries)) ∧
    (∀ (entries : List (String × Except Unit String)) (r : RunbookAnalysis),
      r ∈ analyze_all_runbooks (some entries) →
      ∃ name content, (name, Except.ok content) ∈ entries ∧ endsWithMd name = true ∧
        r = analyze_runbook name content) := by
  refine ⟨rfl, ?_, ?_⟩
  · intro entries name content hmem hmd
    unfold analyze_all_runbooks
    refine List.mem_filterMap.mpr ⟨(name, Except.ok content), ?_, rfl⟩
    exact List.mem_filter.mpr ⟨(mem_sortByName _ _).mpr hmem, hmd⟩
  · intro entries r hr
    unfold analyze_all_runbooks at hr
    rcases List.mem_filterMap.mp hr with ⟨e, he, hsome⟩
    rcases List.mem_filter.mp he with ⟨hmem, hmd⟩
    rcases e with ⟨name, exc⟩
    cases exc with
    | error u => exact absurd hsome (by simp)
    | ok content =>
      refine ⟨name, content, (mem_sortByName _ _).mp hmem, hmd, ?_⟩
      simpa using hsome.symm

/-- Witness for C7: a concrete listing with a failing `.md` file, a non-`.md`
file and a successful `.md` file. -/
theorem analyze_all_runbooks_spec_witness :
    (("good.md", Except.ok "body") ∈
      [("bad.md", (Except.error () : Except Unit String)),
       ("note.txt", Except.ok "x"), ("good.md", Except.ok "body")]) ∧
    endsWithMd "good.md" = true ∧
    analyze_runbook "good.md" "body" ∈ analyze_all_runbooks
      (some [("bad.md", (Except.error () : Except Unit String)),
             ("note.txt", Except.ok "x"), ("good.md", Except.ok "body")]) :=
  ⟨by simp, rfl,
    analyze_all_runbooks_spec.2.1 _ "good.md" "body" (by simp) rfl⟩

/-- If no `.md` entry beats the running best score, the running best name is
returned unchanged. -/
theorem bestGo_of_all_le (toks : List (List Char)) (s : Nat) (b : Option String)
    (l : List (String × String))
    (h : ∀ e ∈ l, endsWithMd e.1 = true → keyword_score toks e.2 ≤ s) :
    bestGo toks (s, b) l = b := by
  induction l generalizing s b with
  | nil => rfl
  | cons f rest ih =>
    rcases f with ⟨name, content⟩
    unfold bestGo
    cases hmd : endsWithMd name with
    | false =>
      simp only [hmd, Bool.not_false, if_pos]
      exact ih s b fun e he hm => h e (List.mem_cons_of_mem _ he) hm
    | true =>
      have hle := h (name, content) (List.mem_cons_self _ _) hmd
      simp only [hmd, Bool.not_true, Bool.false_eq_true, if_false,
        if_neg (Nat.not_lt.mpr hle)]
      exact ih s b fun e he hm => h e (List.mem_cons_of_mem _ he) hm

/-- Once the running best is `some`, the result is `some`. -/
theorem bestGo_isSome (toks : List (List Char)) (s : Nat) (x : String)
    (l : List (String × String)) : ∃ n, bestGo toks (s, some x) l = some n := by
  induction l generalizing s x with
  | nil => exact ⟨x, rfl⟩
  | cons f rest ih =>
    rcases f with ⟨name, content⟩
    unfold bestGo
    cases hmd : endsWithMd name with
    | false =>
      simp only [hmd, Bool.not_false, if_pos]
      exact ih s x
    | true =>
      simp only [hmd, Bool.not_true, Bool.false_eq_true, if_false]
      split
      · exact ih _ name
      · exact ih s x

/-- If some `.md` entry beats the running best score, the result is `some`. -/
theorem bestGo_some_of_exists (toks : List (List Char)) (s : Nat) (b : Option String)
    (l : List (String × String))
    (h : ∃ e ∈ l, endsWithMd e.1 = true ∧ s < keyword_score toks e.2) :
    ∃ n, bestGo toks (s, b) l = some n := by
  induction l generalizing s b with
  | nil => simp at h
  | cons f rest ih =>
    rcases f with ⟨name, content⟩
    unfold bestGo
    cases hmd : endsWithMd name with
    | false =>
      simp only [hmd, Bool.not_false, if_pos]
      rcases h with ⟨e, he, hm, hscore⟩
      rcases List.mem_cons.mp he with he0 | he'
      · rw [he0] at hm
        simp only at hm
        rw [hm] at hmd
        cases hmd
      · exact ih s b ⟨e, he', hm, hscore⟩
    | true =>
      simp only [hmd, Bool.not_true, Bool.false_eq_true, if_false]
      split
      · exact bestGo_isSome toks _ name rest
      · rename_i hnlt
        rcases h with ⟨e, he, hm, hscore⟩
        rcases List.mem_cons.mp he with he0 | he'
        · exfalso
          rw [he0] at hscore
          exact hnlt hscore
        · exact ih s b ⟨e, he', hm, hscore⟩

/-- Any `some` result of the running-best loop either is the incoming best or
names an `.md` entry whose score strictly exceeds the incoming score. -/
theorem bestGo_pos (toks : List (List Char)) (s : Nat) (b : Option String)
    (l : List (String × String)) (n : String)
    (h : bestGo toks (s, b) l = some n) :
    b = some n ∨ ∃ e ∈ l, endsWithMd e.1 = true ∧ e.1 = n ∧ s < keyword_score toks e.2 := by
  induction l generalizing s b with
  | nil => exact Or.inl h
  | cons f rest ih =>
    rcases f with ⟨name, content⟩
    unfold bestGo at h
    cases hmd : endsWithMd name with
    | false =>
      rw [hmd] at h
      simp only [Bool.not_false, if_pos] at h
      rcases ih s b h with hb | ⟨e, he, h1, h2, h3⟩
      · exact Or.inl hb
      · exact Or.inr ⟨e, List.mem_cons_of_mem _ he, h1, h2, h3⟩
    | true =>
      rw [hmd] at h
      simp only [Bool.not_true, Bool.false_eq_true, if_false] at h
      by_cases hlt : s < keyword_score toks content
      · rw [if_pos hlt] at h
        rcases ih _ _ h with hb | ⟨e, he, h1, h2, h3⟩
        · refine Or.inr ⟨(name, content), List.mem_cons_self _ _, hmd, ?_, hlt⟩
          simpa using hb
        · exact Or.inr ⟨e, List.mem_cons_of_mem _ he, h1, h2, hlt.trans h3⟩
      · rw [if_neg hlt] at h
        rcases ih s b h with hb | ⟨e, he, h1, h2, h3⟩
        · exact Or.inl hb
        · exact Or.inr ⟨e, List.mem_cons_of_mem _ he, h1, h2, h3⟩

/-- The running-best loop returns the first `.md` entry attaining the
maximal score, provided that score beats the incoming best. -/
theorem bestGo_first_max (toks : List (List Char)) (l : List (String × String))
    (s : Nat) (b : Option String) (i : Nat) (e : String × String)
    (hget : l.get? i = some e) (hmd : endsWithMd e.1 = true)
    (hs : s < keyword_score toks e.2)
    (hmax : ∀ f ∈ l, endsWithMd f.1 = true →
      keyword_score toks f.2 ≤ keyword_score toks e.2)
    (hbefore : ∀ f ∈ l.take i, endsWithMd f.1 = true →
      keyword_score toks f.2 < keyword_score toks e.2) :
    bestGo toks (s, b) l = some e.1 := by
  induction l generalizing s b i with
  | nil => cases hget
  | cons f rest ih =>
    cases i with
    | zero =>
      have hfe : f = e := by simpa using hget
      subst hfe
      unfold bestGo
      rcases f with ⟨name, content⟩
      simp only at hmd hs hmax ⊢
      rw [hmd]
      simp only [Bool.not_true, Bool.false_eq_true, if_false, if_pos hs]
      exact bestGo_of_all_le toks _ _ rest
        fun g hg hgm => hmax g (List.mem_cons_of_mem _ hg) hgm
    | succ j =>
      have hgf : rest.get? j = some e := by simpa using hget
      have htake : (f :: rest).take (j + 1) = f :: rest.take j := by
        simp [List.take_succ_cons]
      unfold bestGo
      rcases f with ⟨name, content⟩
      cases hmd2 : endsWithMd name with
      | false =>
        simp only [hmd2, Bool.not_false, if_pos]
        refine ih s b j hgf hs (fun g hg hgm => hmax g (List.mem_cons_of_mem _ hg) hgm)
          (fun g hg hgm => ?_)
        exact hbefore g (by rw [htake]; exact List.mem_cons_of_mem _ hg) hgm
      | true =>
        have hflt : keyword_score toks content < keyword_score toks e.2 := by
          refine hbefore (name, content) ?_ hmd2
          rw [htake]
          exact List.mem_cons_self _ _
        simp only [hmd2, Bool.not_true, Bool.false_eq_true, if_false]
        by_cases hlt : s < keyword_score toks content
        · rw [if_pos hlt]
          exact ih _ _ j hgf hflt
            (fun g hg hgm => hmax g (List.mem_cons_of_mem _ hg) hgm)
            (fun g hg hgm => hbefore g (by rw [htake]; exact List.mem_cons_of_mem _ hg) hgm)
        · rw [if_neg hlt]
          exact ih s b j hgf hs (fun g hg hgm => hmax g (List.mem_cons_of_mem _ hg) hgm)
            (fun g hg hgm => hbefore g (by rw [htake]; exact List.mem_cons_of_mem _ hg) hgm)

/-- C8: the best-runbook finder returns `none` exactly when the directory
does not exist or no `.md` candidate has a keyword score strictly greater
than 0; and when a candidate attains the maximal positive score with every
earlier `.md` candidate scoring strictly less (in particular the first of
several tied maximal candidates, in iteration order), that candidate is
returned. -/
theorem find_best_runbook_spec :
    (∀ alert, find_best_runbook alert none = none) ∧
    (∀ alert entries, find_best_runbook alert (some entries) = none ↔
      ∀ e ∈ entries, endsWithMd e.1 = true →
        keyword_score (agentTokens alert) e.2 = 0) ∧
    (∀ alert entries i e, entries.get? i = some e → endsWithMd e.1 = true →
      0 < keyword_score (agentTokens alert) e.2 →
      (∀ f ∈ entries, endsWithMd f.1 = true →
        keyword_score (agentTokens alert) f.2 ≤ keyword_score (agentTokens alert) e.2) →
      (∀ f ∈ entries.take i, endsWithMd f.1 = true →
        keyword_score (agentTokens alert) f.2 < keyword_score (agentTokens alert) e.2) →
      find_best_runbook alert (some entries) = some e.1) := by
  refine ⟨fun alert => rfl, fun alert entries => ?_, fun alert entries i e h1 h2 h3 h4 h5 => ?_⟩
  · constructor
    · intro hnone e he hmd
      by_contra hne
      have hpos : 0 < keyword_score (agentTokens alert) e.2 := Nat.pos_of_ne_zero hne
      rcases bestGo_some_of_exists (agentTokens alert) 0 none entries ⟨e, he, hmd, hpos⟩
        with ⟨n, hn⟩
      have hnone2 : bestGo (agentTokens alert) (0, none) entries = none := hnone
      rw [hnone2] at hn
      cases hn
    · intro hall
      show bestGo (agentTokens alert) (0, none) entries = none
      exact bestGo_of_all_le _ 0 none entries fun e he hm => Nat.le_of_eq (hall e he hm)
  · show bestGo (agentTokens alert) (0, none) entries = some e.1
    exact bestGo_first_max _ entries 0 none i e h1 h2 h3 h4 h5

/-- Witness for C8: among one non-`.md` entry, a zero-scoring `.md` entry and
two tied maximal `.md` entries, the first tied entry is returned. -/
theorem find_best_runbook_spec_witness :
    ([("skip.txt", "database latency"), ("a.md", "nothing here"),
      ("b.md", "database latency rising"), ("c.md", "database latency too")]
        : List (String × String)).get? 2 =
      some ("b.md", "database latency rising") ∧
    find_best_runbook "Database Latency High"
      (some [("skip.txt", "database latency"), ("a.md", "nothing here"),
             ("b.md", "database latency rising"), ("c.md", "database latency too")]) =
      some "b.md" :=
  ⟨rfl,
    find_best_runbook_spec.2.2 "Database Latency High"
      [("skip.txt", "database latency"), ("a.md", "nothing here"),
       ("b.md", "database latency rising"), ("c.md", "database latency too")]
      2 ("b.md", "database latency rising") rfl rfl (by decide) (by decide) (by decide)⟩

/-- C5: the alert "Database Latency High" tokenizes to the three tokens
`database`, `latency`, `high`; any candidate containing `database` and
`latency` but not `high` (case-insensitively) scores exactly 2; and any
returned best match names an entry with a strictly positive score, so a
zero-scoring candidate is never selected while a scoring one exists. -/
theorem alert_db_latency_spec :
    agentTokens "Database Latency High" =
      ["database".data, "latency".data, "high".data] ∧
    (∀ content : String,
      containsSub "database".data (lowerL content.data) = true →
      containsSub "latency".data (lowerL content.data) = true →
      containsSub "high".data (lowerL content.data) = false →
      keyword_score (agentTokens "Database Latency High") content = 2) ∧
    (∀ entries n, find_best_runbook "Database Latency High" (some entries) = some n →
      ∃ e ∈ entries, e.1 = n ∧ endsWithMd e.1 = true ∧
        0 < keyword_score (agentTokens "Database Latency High") e.2) := by
  refine ⟨rfl, fun content h1 h2 h3 => ?_, fun entries n h => ?_⟩
  · have htoks : agentTokens "Database Latency High" =
      ["database".data, "latency".data, "high".data] := rfl
    rw [htoks]
    unfold keyword_score
    have e1 : ("database".data).isEmpty = false := rfl
    have e2 : ("latency".data).isEmpty = false := rfl
    have e3 : ("high".data).isEmpty = false := rfl
    simp [List.countP_cons, h1, h2, h3, e1, e2, e3]
  · have h2 : bestGo (agentTokens "Database Latency High") (0, none) entries = some n := h
    rcases bestGo_pos _ 0 none entries n h2 with hb | ⟨e, he, hmd, hname, hpos⟩
    · cases hb
    · exact ⟨e, he, hname, hmd, hpos⟩

/-- Witness for C5 at a concrete candidate document and a concrete listing. -/
theorem alert_db_latency_spec_witness :
    keyword_score (agentTokens "Database Latency High")
      "Postgres DATABASE shows growing latency numbers" = 2 ∧
    (∃ e ∈ ([("db.md", "database latency report")] : List (String × String)),
      e.1 = "db.md" ∧ endsWithMd e.1 = true ∧
      0 < keyword_score (agentTokens "Database Latency High") e.2) :=
  ⟨alert_db_latency_spec.2.1 "Postgres DATABASE shows growing latency numbers"
      rfl rfl rfl,
    alert_db_latency_spec.2.2 [("db.md", "database latency report")] "db.md" rfl⟩

/-!
**Round-trip machinery for the frontmatter parser (C6)**

`serializeFrontmatter` re-serializes a metadata mapping as `key: value`
lines inside a `---`-delimited block; the theorems below relate re-parsing
it to the original mapping.
-/

/-- One serialized `key: value` line. -/
def serializeLine (kv : List Char × List Char) : List Char :=
  kv.1 ++ ':' :: ' ' :: kv.2

/-- Python `"\n".join`. -/
def joinNl : List (List Char) → List Char
  | [] => []
  | [l] => l
  | l :: l2 :: rest => l ++ '\n' :: joinNl (l2 :: rest)

/-- Serialize a metadata mapping as `key: value` lines inside a
`---`-delimited block. -/
def serializeFrontmatter (m : Meta) : List Char :=
  ('-' :: '-' :: '-' :: '\n' :: []) ++ joinNl (m.map serializeLine) ++
    ('\n' :: '-' :: '-' :: '-' :: '\n' :: [])

theorem dropWhile_head_false {α : Type} {p : α → Bool} {l : List α} {c : α} {t : List α}
    (h : l.dropWhile p = c :: t) : p c = false := by
  induction l with
  | nil => cases h
  | cons a l ih =>
    rw [List.dropWhile_cons] at h
    split at h
    · exact ih h
    · rename_i hpa
      injection h with h1 _
      subst h1
      simpa using hpa

theorem dropWhile_eq_self {α : Type} {p : α → Bool} {l : List α}
    (h : ∀ c t, l = c :: t → p c = false) : l.dropWhile p = l := by
  cases l with
  | nil => rfl
  | cons a t => simp [List.dropWhile_cons, h a t rfl]

theorem dropTrailing_isPrefixOf (p : Char → Bool) (l : List Char) :
    dropTrailing p l <+: l := by
  rcases List.dropWhile_suffix (l := l.reverse) p with ⟨s, hs⟩
  refine ⟨s.reverse, ?_⟩
  unfold dropTrailing
  rw [← List.reverse_append, hs, List.reverse_reverse]

theorem trimBy_sublist (p : Char → Bool) (l : List Char) :
    (trimBy p l).Sublist l := by
  unfold trimBy
  exact ((dropTrailing_isPrefixOf p _).sublist).trans (List.dropWhile_suffix p).sublist

theorem trimBy_length_le (p : Char → Bool) (l : List Char) :
    (trimBy p l).length ≤ l.length :=
  (trimBy_sublist p l).length_le

theorem trimBy_eq_of_length {p : Char → Bool} {l : List Char}
    (h : (trimBy p l).length = l.length) :
    l.dropWhile p = l ∧ trimBy p l = l := by
  have h1 : (trimBy p l).length ≤ (l.dropWhile p).length :=
    ((dropTrailing_isPrefixOf p _).sublist).length_le
  have h2 : (l.dropWhile p).length ≤ l.length :=
    (List.dropWhile_suffix p).sublist.length_le
  have hdw : l.dropWhile p = l :=
    (List.dropWhile_suffix p).eq_of_length (Nat.le_antisymm h2 (h ▸ h1))
  refine ⟨hdw, ?_⟩
  have : trimBy p l <+: l := by
    unfold trimBy
    rw [hdw]
    exact dropTrailing_isPrefixOf p l
  exact this.eq_of_length h

theorem trimBy_head_false {p : Char → Bool} {l : List Char} {c : Char} {t : List Char}
    (h : trimBy p l = c :: t) : p c = false := by
  unfold trimBy at h
  rcases dropTrailing_isPrefixOf p (l.dropWhile p) with ⟨s, hs⟩
  rw [h] at hs
  exact dropWhile_head_false (l := l) hs.symm

theorem trimBy_revhead_false {p : Char → Bool} {l : List Char} {c : Char} {t : List Char}
    (h : (trimBy p l).reverse = c :: t) : p c = false := by
  unfold trimBy dropTrailing at h
  rw [List.reverse_reverse] at h
  exact dropWhile_head_false h

theorem dropTrailing_eq_self {p : Char → Bool} {l : List Char}
    (h : ∀ c t, l.reverse = c :: t → p c = false) : dropTrailing p l = l := by
  unfold dropTrailing
  rw [dropWhile_eq_self h, List.reverse_reverse]

theorem trimBy_eq_self {p : Char → Bool} {l : List Char}
    (hh : ∀ c t, l = c :: t → p c = false)
    (hl : ∀ c t, l.reverse = c :: t → p c = false) : trimBy p l = l := by
  unfold trimBy
  rw [dropWhile_eq_self hh, dropTrailing_eq_self hl]

theorem trimBy_idem (p : Char → Bool) (l : List Char) :
    trimBy p (trimBy p l) = trimBy p l := by
  refine trimBy_eq_self (fun c t h => trimBy_head_false h) (fun c t h => ?_)
  exact trimBy_revhead_false h

/-- A value fixed by the whole normalization chain is fixed by each stage;
in particular it is already whitespace-stripped. -/
theorem stripChain_fixed {v : List Char} (h : stripChain v = v) :
    v.dropWhile isPySpace = v ∧ pyStrip v = v := by
  have l1 : (stripChain v).length ≤ (trimBy (fun c => c = '"') (pyStrip v)).length :=
    trimBy_length_le _ _
  have l2 : (trimBy (fun c => c = '"') (pyStrip v)).length ≤ (pyStrip v).length :=
    trimBy_length_le _ _
  have l3 : (pyStrip v).length ≤ v.length := trimBy_length_le _ _
  have hv : (pyStrip v).length = v.length := by
    have := congrArg List.length h
    omega
  rcases trimBy_eq_of_length hv with ⟨hdw, hst⟩
  exact ⟨hdw, hst⟩

/-- Unfolding equation of `pySplitlinesGo` on the empty list. -/
theorem pySplitlinesGo_nil (acc : List Char) :
    pySplitlinesGo acc [] = [acc.reverse] := rfl

/-- Unfolding equation of `pySplitlinesGo` on a cons. -/
theorem pySplitlinesGo_cons (acc : List Char) (c : Char) (rest : List Char) :
    pySplitlinesGo acc (c :: rest) =
      if isLinebreak c then
        match rest with
        | [] => [acc.reverse]
        | d :: r =>
          if c = '\r' && d = '\n' then
            acc.reverse :: (match r with | [] => [] | _ :: _ => pySplitlinesGo [] r)
          else acc.reverse :: pySplitlinesGo [] (d :: r)
      else pySplitlinesGo (c :: acc) rest := by
  rw [pySplitlinesGo.eq_def]

/-- Every piece produced by `pySplitlines` is free of line-break characters. -/
theorem pySplitlinesGo_pieces_no_lb :
    ∀ (n : Nat) (l : List Char), l.length ≤ n → ∀ (acc piece : List Char),
      acc.any isLinebreak = false → piece ∈ pySplitlinesGo acc l →
      piece.any isLinebreak = false := by
  intro n
  induction n with
  | zero =>
    intro l hl acc piece hacc hmem
    have : l = [] := List.eq_nil_of_length_eq_zero (Nat.le_zero.mp hl)
    subst this
    rw [pySplitlinesGo_nil] at hmem
    simp only [List.mem_singleton] at hmem
    subst hmem
    simpa using hacc
  | succ n ih =>
    intro l hl acc piece hacc hmem
    cases l with
    | nil =>
      rw [pySplitlinesGo_nil] at hmem
      simp only [List.mem_singleton] at hmem
      subst hmem
      simpa using hacc
    | cons c rest =>
      rw [pySplitlinesGo_cons] at hmem
      by_cases hlb : isLinebreak c = true
      · rw [if_pos hlb] at hmem
        cases rest with
        | nil =>
          dsimp only at hmem
          simp only [List.mem_singleton] at hmem
          subst hmem
          simpa using hacc
        | cons d r =>
          dsimp only at hmem
          split at hmem
          · rcases List.mem_cons.mp hmem with hpiece | hmem2
            · subst hpiece
              simpa using hacc
            · cases r with
              | nil => cases hmem2
              | cons e r2 =>
                refine ih (e :: r2) ?_ [] piece rfl hmem2
                simp only [List.length_cons] at hl ⊢
                omega
          · rcases List.mem_cons.mp hmem with hpiece | hmem2
            · subst hpiece
              simpa using hacc
            · refine ih (d :: r) ?_ [] piece rfl hmem2
              simp only [List.length_cons] at hl ⊢
              omega
      · rw [if_neg hlb] at hmem
        refine ih rest ?_ (c :: acc) piece ?_ hmem
        · simp only [List.length_cons] at hl
          omega
        · simp only [List.any_cons, hacc, Bool.or_false]
          simpa using hlb

/-- Lines returned by `pySplitlines` contain no line-break character. -/
theorem pySplitlines_no_lb (raw : List Char) :
    ∀ piece ∈ pySplitlines raw, piece.any isLinebreak = false := by
  intro piece hmem
  unfold pySplitlines at hmem
  split at hmem
  · cases hmem
  · exact pySplitlinesGo_pieces_no_lb _ _ le_rfl [] piece rfl hmem

/-- Scanning a string whose first part contains no line break just
accumulates it. -/
theorem pySplitlinesGo_append_no_lb (line : List Char)
    (h : line.any isLinebreak = false) :
    ∀ (acc s : List Char),
      pySplitlinesGo acc (line ++ s) = pySplitlinesGo (line.reverse ++ acc) s := by
  induction line with
  | nil => intro acc s; rfl
  | cons c t ih =>
    intro acc s
    have hc : isLinebreak c = false := by
      simp only [List.any_cons] at h
      exact (Bool.or_eq_false_iff.mp h).1
    have ht : t.any isLinebreak = false := by
      simp only [List.any_cons] at h
      exact (Bool.or_eq_false_iff.mp h).2
    show pySplitlinesGo acc (c :: (t ++ s)) = _
    rw [pySplitlinesGo_cons, if_neg (by rw [hc]; exact Bool.false_ne_true)]
    rw [ih ht (c :: acc) s]
    simp

/-- Splitting a `"\n"`-joined list of non-empty, line-break-free lines gives
back the lines. -/
theorem pySplitlines_joinNl (lines : List (List Char))
    (hne : ∀ l ∈ lines, l ≠ [])
    (hlb : ∀ l ∈ lines, l.any isLinebreak = false) :
    pySplitlines (joinNl lines) = lines := by
  induction lines with
  | nil => rfl
  | cons l rest ih =>
    cases rest with
    | nil =>
      have hl := hne l (List.mem_cons_self _ _)
      have hl2 := hlb l (List.mem_cons_self _ _)
      show pySplitlines (joinNl [l]) = [l]
      unfold joinNl
      cases hc : l with
      | nil => exact absurd hc hl
      | cons c t =>
        show pySplitlinesGo [] (c :: t) = [c :: t]
        have h1 : (c :: t) ++ ([] : List Char) = c :: t := by simp
        calc pySplitlinesGo [] (c :: t)
            = pySplitlinesGo [] ((c :: t) ++ []) := by rw [h1]
          _ = pySplitlinesGo ((c :: t).reverse ++ []) [] :=
              pySplitlinesGo_append_no_lb (c :: t) (hc ▸ hl2) [] []
          _ = [((c :: t).reverse ++ []).reverse] := pySplitlinesGo_nil _
          _ = [c :: t] := by simp
    | cons l2 rest2 =>
      have hl := hne l (List.mem_cons_self _ _)
      have hl2 := hlb l (List.mem_cons_self _ _)
      have hl2ne := hne l2 (List.mem_cons_of_mem _ (List.mem_cons_self _ _))
      have hjne : joinNl (l2 :: rest2) ≠ [] := by
        cases rest2 with
        | nil => exact hl2ne
        | cons l3 rest3 =>
          show l2 ++ '\n' :: joinNl (l3 :: rest3) ≠ []
          cases hc2 : l2 with
          | nil => exact absurd hc2 hl2ne
          | cons a b => simp
      have hjoin : joinNl (l :: l2 :: rest2) = l ++ '\n' :: joinNl (l2 :: rest2) := rfl
      rw [hjoin]
      cases hc : l with
      | nil => exact absurd hc hl
      | cons c t =>
        subst hc
        cases hcj : joinNl (l2 :: rest2) with
        | nil => exact absurd hcj hjne
        | cons d u =>
          show pySplitlinesGo [] ((c :: t) ++ '\n' :: d :: u) = _
          rw [pySplitlinesGo_append_no_lb (c :: t) hl2 [] ('\n' :: d :: u)]
          have hstep : pySplitlinesGo ((c :: t).reverse ++ []) ('\n' :: d :: u) =
              ((c :: t).reverse ++ []).reverse :: pySplitlinesGo [] (d :: u) := by
            rw [pySplitlinesGo_cons, if_pos (by decide)]
            dsimp only
            rw [if_neg (by simp)]
          rw [hstep]
          have hrec : pySplitlinesGo [] (d :: u) = pySplitlines (joinNl (l2 :: rest2)) := by
            rw [hcj]
            rfl
          rw [hrec, ih (fun x hx => hne x (List.mem_cons_of_mem _ hx))
            (fun x hx => hlb x (List.mem_cons_of_mem _ hx))]
          simp

/-- The key invariants guaranteed for every key produced by
`_parse_yaml_kv`: stripped, colon-free, not starting with `#`, and free of
line breaks. -/
def KeyWF (k : List Char) : Prop :=
  pyStrip k = k ∧ k.contains ':' = false ∧ (∀ c t, k = c :: t → c ≠ '#') ∧
  k.any isLinebreak = false

/-- Invariants of a parsed metadata mapping: well-formed keys, line-break
free values, and no duplicate keys (it is a Python `dict`). -/
def MetaWF (m : Meta) : Prop :=
  (∀ kv ∈ m, KeyWF kv.1 ∧ kv.2.any isLinebreak = false) ∧ (m.map Prod.fst).Nodup

theorem mem_dictInsert {m : Meta} {k v : List Char} {kv : List Char × List Char}
    (h : kv ∈ dictInsert m k v) : kv ∈ m ∨ kv = (k, v) := by
  induction m with
  | nil => simpa [dictInsert] using h
  | cons a rest ih =>
    unfold dictInsert at h
    split at h
    · rename_i heq
      rcases List.mem_cons.mp h with h1 | h1
      · right
        rw [h1, heq]

      · exact Or.inl (List.mem_cons_of_mem _ h1)
    · rcases List.mem_cons.mp h with h1 | h1
      · exact Or.inl (h1 ▸ List.mem_cons_self _ _)
      · rcases ih h1 with h2 | h2
        · exact Or.inl (List.mem_cons_of_mem _ h2)
        · exact Or.inr h2

theorem mem_keys_dictInsert {m : Meta} {k v a : List Char}
    (h : a ∈ (dictInsert m k v).map Prod.fst) :
    a ∈ m.map Prod.fst ∨ a = k := by
  rcases List.mem_map.mp h with ⟨kv, hkv, hfst⟩
  rcases mem_dictInsert hkv with h1 | h1
  · exact Or.inl (hfst ▸ List.mem_map_of_mem _ h1)
  · right
    rw [← hfst, h1]

theorem keys_nodup_dictInsert {m : Meta} {k v : List Char}
    (h : (m.map Prod.fst).Nodup) : ((dictInsert m k v).map Prod.fst).Nodup := by
  induction m with
  | nil => simp [dictInsert]
  | cons a rest ih =>
    unfold dictInsert
    split
    · simpa using h
    · rename_i hne
      simp only [List.map_cons, List.nodup_cons] at h ⊢
      refine ⟨fun hmem => ?_, ih h.2⟩
      rcases mem_keys_dictInsert hmem with h1 | h1
      · exact h.1 h1
      · exact hne (by rw [h1])

theorem any_false_of_subset {l' l : List Char} {p : Char → Bool}
    (hsub : ∀ a ∈ l', a ∈ l) (h : l.any p = false) : l'.any p = false := by
  by_contra hc
  rcases List.any_eq_true.mp (Bool.of_not_eq_false hc) with ⟨a, ha, hpa⟩
  have : l.any p = true := List.any_eq_true.mpr ⟨a, hsub a ha, hpa⟩
  rw [h] at this
  cases this

/-- Every key/value pair produced from a single line satisfies the key
invariants; the value is line-break free when the line is. -/
theorem parseKvLine_wf {line k v : List Char}
    (h : parseKvLine line = some (k, v)) (hlb : line.any isLinebreak = false) :
    KeyWF k ∧ v.any isLinebreak = false := by
  unfold parseKvLine at h
  set l := pyStrip line with hldef
  have hlsub : ∀ a ∈ l, a ∈ line := fun a ha => (trimBy_sublist _ _).subset ha
  have hllb : l.any isLinebreak = false := any_false_of_subset hlsub hlb
  cases hl : l with
  | nil => rw [hl] at h; cases h
  | cons c t =>
    rw [hl] at h
    dsimp only at h
    split at h
    · cases h
    · split at h
      · cases h
      · rename_i hhash hcol
        injection h with hpair
        injection hpair with hk hv
        have hkdef : k = pyStrip ((c :: t).takeWhile fun d => d ≠ ':') := hk.symm
        have hvdef : v = stripChain (((c :: t).dropWhile fun d => d ≠ ':').drop 1) := hv.symm
        have hksub : ∀ a ∈ k, a ∈ line := by
          intro a ha
          rw [hkdef] at ha
          have h1 := (trimBy_sublist _ _).subset ha
          have h2 := (List.takeWhile_sublist (l := c :: t) _).subset h1
          exact hlsub a (hl ▸ h2)
        have hvsub : ∀ a ∈ v, a ∈ line := by
          intro a ha
          rw [hvdef] at ha
          have h1 := (trimBy_sublist _ _).subset ((trimBy_sublist _ _).subset
            ((trimBy_sublist _ _).subset ha))
          have h2 := List.drop_subset 1 ((c :: t).dropWhile fun d => d ≠ ':') h1
          have h3 := (List.dropWhile_suffix (l := c :: t) _).subset h2
          exact hlsub a (hl ▸ h3)
        refine ⟨⟨?_, ?_, ?_, ?_⟩, any_false_of_subset hvsub hlb⟩
        · rw [hkdef]
          exact trimBy_idem _ _
        · by_contra hc2
          have : (':' : Char) ∈ k := by
            have := Bool.of_not_eq_false hc2
            simpa [List.contains, List.elem_iff] using this
          rw [hkdef] at this
          have h1 := (trimBy_sublist _ _).subset this
          have h2 := List.mem_takeWhile_imp h1
          simp at h2
        · intro c2 t2 hk2
          have h0 : trimBy isPySpace line = c :: t := by
            rw [show trimBy isPySpace line = pyStrip line from rfl, ← hldef]
            exact hl
          have hcs : isPySpace c = false := trimBy_head_false h0
          by_cases hcc : c = ':'
          · rw [hkdef] at hk2
            rw [List.takeWhile_cons, if_neg (by simp [hcc])] at hk2
            cases hk2
          · rw [hkdef, List.takeWhile_cons, if_pos (by simp [hcc])] at hk2
            have hdw : ((c :: t.takeWhile fun d => d ≠ ':').dropWhile isPySpace) =
                c :: t.takeWhile fun d => d ≠ ':' :=
              dropWhile_eq_self fun c' t' he => by
                injection he with he1 _
                rw [he1] at hcs
                exact hcs
            unfold pyStrip trimBy at hk2
            rw [hdw] at hk2
            rcases dropTrailing_isPrefixOf isPySpace (c :: t.takeWhile fun d => d ≠ ':')
              with ⟨s, hs⟩
            rw [hk2] at hs
            intro hc2eq
            have hceq : c2 = c := by
              rw [List.cons_append] at hs
              injection hs with h1 _
            exact hhash (hceq ▸ hc2eq ▸ rfl)
        · exact any_false_of_subset hksub hlb

/-- Every pair in the folded dictionary comes from the initial accumulator
or from some line. -/
theorem foldl_insert_mem {lines : List (List Char)} {acc : Meta}
    {kv : List Char × List Char}
    (h : kv ∈ lines.foldl
      (fun m line =>
        match parseKvLine line with
        | none => m
        | some (k, v) => dictInsert m k v) acc) :
    kv ∈ acc ∨ ∃ line ∈ lines, parseKvLine line = some kv := by
  induction lines generalizing acc with
  | nil => exact Or.inl h
  | cons ln rest ih =>
    rw [List.foldl_cons] at h
    rcases ih h with h1 | ⟨line, hmem, hline⟩
    · cases hpl : parseKvLine ln with
      | none => rw [hpl] at h1; exact Or.inl h1
      | some kv2 =>
        rcases kv2 with ⟨k2, v2⟩
        rw [hpl] at h1
        rcases mem_dictInsert h1 with h2 | h2
        · exact Or.inl h2
        · exact Or.inr ⟨ln, List.mem_cons_self _ _, by rw [hpl, h2]⟩
    · exact Or.inr ⟨line, List.mem_cons_of_mem _ hmem, hline⟩

/-- The folded dictionary has no duplicate keys. -/
theorem foldl_insert_nodup {lines : List (List Char)} {acc : Meta}
    (h : (acc.map Prod.fst).Nodup) :
    ((lines.foldl
      (fun m line =>
        match parseKvLine line with
        | none => m
        | some (k, v) => dictInsert m k v) acc).map Prod.fst).Nodup := by
  induction lines generalizing acc with
  | nil => exact h
  | cons ln rest ih =>
    rw [List.foldl_cons]
    refine ih ?_
    cases hpl : parseKvLine ln with
    | none => exact h
    | some kv2 =>
      rcases kv2 with ⟨k2, v2⟩
      exact keys_nodup_dictInsert h

/-- The output of `_parse_yaml_kv` satisfies the mapping invariants. -/
theorem parse_yaml_kv_wf (raw : List Char) : MetaWF (parse_yaml_kv raw) := by
  constructor
  · intro kv hkv
    unfold parse_yaml_kv at hkv
    rcases foldl_insert_mem hkv with h1 | ⟨line, hmem, hline⟩
    · cases h1
    · rcases kv with ⟨k, v⟩
      exact parseKvLine_wf hline (pySplitlines_no_lb raw line hmem)
  · unfold parse_yaml_kv
    exact foldl_insert_nodup (by simp)

/-- The metadata returned by `_parse_frontmatter` satisfies the invariants. -/
theorem parse_frontmatter_wf (content : List Char) :
    MetaWF (parse_frontmatter content).1 := by
  unfold parse_frontmatter
  cases h : frontmatterMatch content with
  | none => exact ⟨by simp, by simp⟩
  | some gb => exact parse_yaml_kv_wf gb.1

theorem takeWhile_colon (k rest : List Char) (hk : k.contains ':' = false) :
    ((k ++ ':' :: rest).takeWhile fun d => d ≠ ':') = k ∧
    ((k ++ ':' :: rest).dropWhile fun d => d ≠ ':') = ':' :: rest := by
  induction k with
  | nil => simp [List.takeWhile_cons, List.dropWhile_cons]
  | cons a t ih =>
    have ha : (a == ':') = false := by
      by_contra hc
      have : a = ':' := by
        have := Bool.of_not_eq_false hc
        simpa using this
      rw [List.contains_cons] at hk
      simp [this] at hk
    have ht : t.contains ':' = false := by
      rw [List.contains_cons] at hk
      simp only [Bool.or_eq_false_iff] at hk
      exact hk.2
    rcases ih ht with ⟨ih1, ih2⟩
    constructor
    · rw [List.cons_append, List.takeWhile_cons, if_pos (by simpa using ha)]
      rw [ih1]
    · rw [List.cons_append, List.dropWhile_cons, if_pos (by simpa using ha)]
      rw [ih2]

/-- The head of a serialized line is not whitespace. -/
theorem serializedHead_not_space {k : List Char} (hkwf : KeyWF k) (rest : List Char) :
    ∀ c t2, (k ++ ':' :: rest) = c :: t2 → isPySpace c = false := by
  intro c t2 he
  cases hk : k with
  | nil =>
    rw [hk] at he
    simp only [List.nil_append] at he
    injection he with h1 _
    rw [← h1]
    rfl
  | cons c0 t0 =>
    rw [hk, List.cons_append] at he
    injection he with h1 _
    have h2 := trimBy_head_false
      (show trimBy isPySpace k = c0 :: t0 from hkwf.1.trans hk)
    exact h1 ▸ h2

/-- Stripping a serialized line with an empty value removes exactly the
trailing space. -/
theorem pyStrip_serialized_nil {k : List Char} (hkwf : KeyWF k) :
    pyStrip (k ++ ':' :: ' ' :: []) = k ++ ':' :: [] := by
  unfold pyStrip trimBy
  rw [dropWhile_eq_self (serializedHead_not_space hkwf _)]
  unfold dropTrailing
  rw [show k ++ ':' :: ' ' :: [] = k ++ [':', ' '] from rfl, List.reverse_append]
  rw [show ([':', ' '] : List Char).reverse = [' ', ':'] from rfl]
  rw [List.cons_append, List.dropWhile_cons, if_pos (by rfl), List.cons_append,
    List.dropWhile_cons, if_neg (by simp [isPySpace])]
  simp

/-- Stripping a serialized line with a fully-normalized non-empty value is
the identity. -/
theorem pyStrip_serialized_cons {k v : List Char} (hkwf : KeyWF k)
    (hvdt : dropTrailing isPySpace v = v) (hvne : v ≠ []) :
    pyStrip (k ++ ':' :: ' ' :: v) = k ++ ':' :: ' ' :: v := by
  unfold pyStrip trimBy
  rw [dropWhile_eq_self (serializedHead_not_space hkwf _)]
  unfold dropTrailing
  have hvrev : v.reverse.dropWhile isPySpace = v.reverse := by
    have := congrArg List.reverse hvdt
    unfold dropTrailing at this
    rw [List.reverse_reverse] at this
    exact this
  have hrevne : v.reverse ≠ [] := by
    intro hc
    exact hvne (by simpa using congrArg List.reverse hc)
  rw [show k ++ ':' :: ' ' :: v = k ++ [':', ' '] ++ v by simp]
  rw [List.reverse_append, List.reverse_append]
  have hstop : ∀ c t2, v.reverse = c :: t2 → isPySpace c = false := by
    intro c t2 he
    rw [he] at hvrev
    exact dropWhile_head_false hvrev
  cases hvr : v.reverse with
  | nil => exact absurd hvr hrevne
  | cons e w =>
    rw [List.cons_append, List.dropWhile_cons, if_neg (by simp [hstop e w hvr])]
    rw [← List.cons_append, ← hvr]
    simp

/-- Re-parsing a serialized `key: value` line recovers the pair, provided
the key satisfies the parser invariants and the value is fixed by the
normalization chain. -/
theorem parseKvLine_serialized {k v : List Char} (hkwf : KeyWF k)
    (hchain : stripChain v = v) :
    parseKvLine (serializeLine (k, v)) = some (k, v) := by
  rcases stripChain_fixed hchain with ⟨hvdw, hvstrip⟩
  have hvdt : dropTrailing isPySpace v = v := by
    have := hvstrip
    unfold pyStrip trimBy at this
    rw [hvdw] at this
    exact this
  have hhash : ∀ c t2, (k ++ ':' :: [] : List Char) = c :: t2 → ¬c = '#' := by
    intro c t2 he hceq
    cases hk : k with
    | nil =>
      rw [hk] at he
      simp only [List.nil_append] at he
      injection he with h1 _
      rw [hceq] at h1
      cases h1
    | cons c0 t0 =>
      rw [hk, List.cons_append] at he
      injection he with h1 _
      exact (hkwf.2.2.1 c0 t0 hk) (by rw [h1]; exact hceq)
  have hhash2 : ∀ c t2 rest, (k ++ ':' :: rest : List Char) = c :: t2 → ¬c = '#' := by
    intro c t2 rest he hceq
    cases hk : k with
    | nil =>
      rw [hk] at he
      simp only [List.nil_append] at he
      injection he with h1 _
      rw [hceq] at h1
      cases h1
    | cons c0 t0 =>
      rw [hk, List.cons_append] at he
      injection he with h1 _
      exact (hkwf.2.2.1 c0 t0 hk) (by rw [h1]; exact hceq)
  have hcontains : ∀ rest : List Char, (k ++ ':' :: rest).contains ':' = true := by
    intro rest
    have : (':' : Char) ∈ k ++ ':' :: rest :=
      List.mem_append_right _ (List.mem_cons_self _ _)
    simp [List.contains, List.elem_iff, this]
  cases hv : v with
  | nil =>
    subst hv
    unfold parseKvLine serializeLine
    rw [pyStrip_serialized_nil hkwf]
    rcases takeWhile_colon k [] hkwf.2.1 with ⟨htw, hdw⟩
    cases hk2 : (k ++ ':' :: [] : List Char) with
    | nil => exact absurd hk2 (by simp)
    | cons c2 t2 =>
      rw [← hk2]
      dsimp only
      rw [hk2]
      dsimp only
      rw [if_neg ?hnegh]
      case hnegh => exact hhash c2 t2 hk2
      rw [if_neg (by rw [← hk2, hcontains]; simp)]
      rw [← hk2, htw, hdw]
      rw [hkwf.1]
      rfl
  | cons d u =>
    rw [← hv]
    have hvne : v ≠ [] := by rw [hv]; simp
    unfold parseKvLine serializeLine
    rw [pyStrip_serialized_cons hkwf hvdt hvne]
    rcases takeWhile_colon k (' ' :: v) hkwf.2.1 with ⟨htw, hdw⟩
    cases hk2 : (k ++ ':' :: ' ' :: v : List Char) with
    | nil => exact absurd hk2 (by simp)
    | cons c2 t2 =>
      rw [← hk2]
      dsimp only
      rw [hk2]
      dsimp only
      rw [if_neg ?hnegh2]
      case hnegh2 => exact hhash2 c2 t2 (' ' :: v) hk2
      rw [if_neg (by rw [← hk2, hcontains]; simp)]
      rw [← hk2, htw, hdw]
      have hstripsp : pyStrip (' ' :: v) = v := by
        unfold pyStrip trimBy
        rw [show (' ' :: v).dropWhile isPySpace = v.dropWhile isPySpace by
          rw [List.dropWhile_cons, if_pos (by rfl)]]
        rw [hvdw]
        exact hvdt
      have hval : stripChain (List.drop 1 (':' :: ' ' :: v)) = v := by
        rw [show List.drop 1 (':' :: ' ' :: v) = ' ' :: v from rfl]
        unfold stripChain
        rw [hstripsp]
        have := hchain
        unfold stripChain at this
        rw [hvstrip] at this
        exact this
      rw [hval, hkwf.1]

/-- Unfolding equation of `scanClose` on a cons. -/
theorem scanClose_cons (acc : List Char) (c : Char) (rest : List Char) :
    scanClose acc (c :: rest) =
      if c = '\n' then
        match rest with
        | '-' :: '-' :: '-' :: rest2 =>
          match afterLastNlOfRun rest2 with
          | some body => some (acc.reverse, body)
          | none => scanClose (c :: acc) rest
        | _ => scanClose (c :: acc) rest
      else scanClose (c :: acc) rest := by
  rw [scanClose.eq_def]

/-- If the whitespace run at the head has a non-whitespace character before
any newline, the `\s*\n` tail of the closing delimiter cannot match. -/
theorem afterLastNlOfRun_cons (c : Char) (rest : List Char) :
    afterLastNlOfRun (c :: rest) =
      if c = '\n' then
        match afterLastNlOfRun rest with
        | some r => some r
        | none => some rest
      else if isPySpace c then afterLastNlOfRun rest else none := by
  rw [afterLastNlOfRun.eq_def]

theorem afterLastNlOfRun_none {t : List Char} (hws : t.all isPySpace = false)
    (hnl : (t.all fun c => !(c = '\n')) = true) :
    ∀ s, afterLastNlOfRun (t ++ s) = none := by
  induction t with
  | nil => cases hws
  | cons c t2 ih =>
    intro s
    have hcall : (isPySpace c && t2.all isPySpace) = false := by
      simpa [List.all_cons] using hws
    simp only [List.all_cons, Bool.and_eq_true] at hnl
    have hcnl : c ≠ '\n' := by simpa using hnl.1
    show afterLastNlOfRun (c :: (t2 ++ s)) = none
    rw [afterLastNlOfRun_cons, if_neg hcnl]
    rcases Bool.eq_false_or_eq_true (isPySpace c) with hc | hc
    · rw [hc, if_pos rfl]
      refine ih ?_ hnl.2 s
      rw [hc] at hcall
      simpa using hcall
    · rw [hc]
      simp

/-- Scanning past newline-free text just accumulates it. -/
theorem scanClose_no_nl (line : List Char)
    (h : (line.all fun c => !(c = '\n')) = true) :
    ∀ (acc s : List Char), scanClose acc (line ++ s) = scanClose (line.reverse ++ acc) s := by
  induction line with
  | nil => intro acc s; rfl
  | cons c t ih =>
    intro acc s
    simp only [List.all_cons, Bool.and_eq_true] at h
    have hc : c ≠ '\n' := by
      intro he
      rw [he] at h
      simpa using h.1
    show scanClose acc (c :: (t ++ s)) = _
    rw [scanClose_cons, if_neg hc, ih h.2 (c :: acc) s]
    simp

/-- A newline that is not followed by a valid closing delimiter is
accumulated and scanning continues. -/
theorem scanClose_nl_step (X acc : List Char)
    (hX : ∀ rest2, X = '-' :: '-' :: '-' :: rest2 → afterLastNlOfRun rest2 = none) :
    scanClose acc ('\n' :: X) = scanClose ('\n' :: acc) X := by
  rw [scanClose_cons, if_pos rfl]
  split
  · rename_i w
    rw [hX w rfl]
  · rfl

/-- A serialized line followed by a newline-headed continuation cannot complete a
closing delimiter: either the dashes do not line up, or the run after them
hits a non-whitespace character of the line before any newline. -/
theorem line_no_close {ℓ Y : List Char} (hnl : (ℓ.all fun c => !(c = '\n')) = true)
    (hguard : ∀ t, ℓ = '-' :: '-' :: '-' :: t → t.all isPySpace = false)
    (hY : ∀ c t, Y = c :: t → c = '\n') :
    ∀ rest2, ℓ ++ Y = '-' :: '-' :: '-' :: rest2 → afterLastNlOfRun rest2 = none := by
  intro rest2 heq
  cases hl1 : ℓ with
  | nil =>
    rw [hl1] at heq
    simp only [List.nil_append] at heq
    have := hY '-' _ heq
    cases this
  | cons c1 t1 =>
    rw [hl1, List.cons_append] at heq
    injection heq with h1 heq
    cases hl2 : t1 with
    | nil =>
      rw [hl2] at heq
      simp only [List.nil_append] at heq
      have := hY '-' _ heq
      cases this
    | cons c2 t2 =>
      rw [hl2, List.cons_append] at heq
      injection heq with h2 heq
      cases hl3 : t2 with
      | nil =>
        rw [hl3] at heq
        simp only [List.nil_append] at heq
        have := hY '-' _ heq
        cases this
      | cons c3 t3 =>
        rw [hl3, List.cons_append] at heq
        injection heq with h3 heq
        have hldef : ℓ = '-' :: '-' :: '-' :: t3 := by
          rw [hl1, hl2, hl3, h1, h2, h3]
        have hguard3 := hguard t3 hldef
        have hnl3 : (t3.all fun c => !(c = '\n')) = true := by
          rw [hldef] at hnl
          simp only [List.all_cons, Bool.and_eq_true] at hnl
          exact hnl.2.2.2
        rw [← heq]
        exact afterLastNlOfRun_none hguard3 hnl3 Y

/-- Scanning the joined lines followed by the closing delimiter finds
exactly the closing delimiter, returning the joined lines as the group. -/
theorem scanClose_joined (lines : List (List Char))
    (hne : ∀ l ∈ lines, l ≠ [])
    (hnl : ∀ l ∈ lines, (l.all fun c => !(c = '\n')) = true)
    (hguard : ∀ l ∈ lines, ∀ t, l = '-' :: '-' :: '-' :: t → t.all isPySpace = false) :
    ∀ acc, scanClose acc (joinNl lines ++ ('\n' :: '-' :: '-' :: '-' :: '\n' :: [])) =
      some (acc.reverse ++ joinNl lines, []) := by
  induction lines with
  | nil =>
    intro acc
    show scanClose acc ('\n' :: '-' :: '-' :: '-' :: '\n' :: []) = _
    simp [scanClose, afterLastNlOfRun, joinNl]
  | cons l rest ih =>
    intro acc
    cases rest with
    | nil =>
      show scanClose acc (l ++ ('\n' :: '-' :: '-' :: '-' :: '\n' :: [])) = _
      rw [scanClose_no_nl l (hnl l (List.mem_cons_self _ _)) acc _]
      have hbase : scanClose (l.reverse ++ acc) ('\n' :: '-' :: '-' :: '-' :: '\n' :: []) =
          some ((l.reverse ++ acc).reverse, []) := by
        simp [scanClose, afterLastNlOfRun]
      rw [hbase]
      simp [joinNl]
    | cons l2 rest2 =>
      have hJ : joinNl (l :: l2 :: rest2) = l ++ '\n' :: joinNl (l2 :: rest2) := rfl
      rw [hJ]
      have hassoc : (l ++ '\n' :: joinNl (l2 :: rest2)) ++
          ('\n' :: '-' :: '-' :: '-' :: '\n' :: []) =
          l ++ ('\n' :: (joinNl (l2 :: rest2) ++ ('\n' :: '-' :: '-' :: '-' :: '\n' :: []))) := by
        simp
      rw [hassoc, scanClose_no_nl l (hnl l (List.mem_cons_self _ _)) acc _]
      have hY2 : ∃ Y, joinNl (l2 :: rest2) ++ ('\n' :: '-' :: '-' :: '-' :: '\n' :: []) =
          l2 ++ Y ∧ (∀ c t, Y = c :: t → c = '\n') := by
        cases rest2 with
        | nil =>
          exact ⟨'\n' :: '-' :: '-' :: '-' :: '\n' :: [], by simp [joinNl],
            fun c t he => by injection he with h1 _; exact h1.symm⟩
        | cons l3 rest3 =>
          refine ⟨'\n' :: joinNl (l3 :: rest3) ++ ('\n' :: '-' :: '-' :: '-' :: '\n' :: []),
            by simp [joinNl], fun c t he => ?_⟩
          rw [List.cons_append] at he
          injection he with h1 _
          exact h1.symm
      rcases hY2 with ⟨Y, hYeq, hYhd⟩
      have hstep := scanClose_nl_step
        (joinNl (l2 :: rest2) ++ ('\n' :: '-' :: '-' :: '-' :: '\n' :: []))
        (l.reverse ++ acc)
        (by
          rw [hYeq]
          exact line_no_close (hnl l2 (by simp))
            (hguard l2 (by simp)) hYhd)
      rw [hstep]
      rw [show '\n' :: (l.reverse ++ acc) = ('\n' :: l.reverse) ++ acc from rfl]
      have := ih (fun x hx => hne x (List.mem_cons_of_mem _ hx))
        (fun x hx => hnl x (List.mem_cons_of_mem _ hx))
        (fun x hx => hguard x (List.mem_cons_of_mem _ hx))
        (('\n' :: l.reverse) ++ acc)
      rw [this]
      simp

/-- A list headed by a non-whitespace character yields no backtracking
candidates for the opening `\s*\n`. -/
theorem nlCandidates_nil {l : List Char}
    (h : ∀ c t, l = c :: t → isPySpace c = false) : nlCandidates l = [] := by
  cases l with
  | nil => rfl
  | cons c t =>
    have hc := h c t rfl
    have hcn : ¬(c = '\n') := by
      intro he
      rw [he] at hc
      cases hc
    unfold nlCandidates
    rw [if_neg hcn, if_neg (by rw [hc]; exact Bool.false_ne_true)]

/-- Serialized lines are never empty. -/
theorem serializeLine_ne_nil (kv : List Char × List Char) : serializeLine kv ≠ [] := by
  simp [serializeLine]

/-- Line-break-free text contains no newline. -/
theorem no_nl_of_no_lb {l : List Char} (h : l.any isLinebreak = false) :
    (l.all fun c => !(c = '\n')) = true := by
  rw [List.all_eq_true]
  intro x hx
  by_cases hxe : x = '\n'
  · exfalso
    have : l.any isLinebreak = true :=
      List.any_eq_true.mpr ⟨x, hx, by rw [hxe]; rfl⟩
    rw [h] at this
    cases this
  · simp [hxe]

/-- A serialized line of a line-break-free pair is line-break free. -/
theorem serializeLine_no_lb {kv : List Char × List Char}
    (hk : kv.1.any isLinebreak = false) (hv : kv.2.any isLinebreak = false) :
    (serializeLine kv).any isLinebreak = false := by
  unfold serializeLine
  rw [List.any_append, hk]
  have e1 : isLinebreak ':' = false := rfl
  have e2 : isLinebreak ' ' = false := rfl
  simp [List.any_cons, e1, e2, hv]

/-- A serialized line starting with `---` still has the colon before any
newline, so the whitespace-run guard of the closing delimiter fails. -/
theorem serializeLine_guard {kv : List Char × List Char} :
    ∀ t, serializeLine kv = '-' :: '-' :: '-' :: t → t.all isPySpace = false := by
  intro t heq
  unfold serializeLine at heq
  have hmem : (':' : Char) ∈ t ∨ False := by
    cases hk : kv.1 with
    | nil =>
      rw [hk, List.nil_append] at heq
      injection heq with h1 _
      cases h1
    | cons c1 t1 =>
      rw [hk, List.cons_append] at heq
      injection heq with h1 heq
      cases hk2 : t1 with
      | nil =>
        rw [hk2, List.nil_append] at heq
        injection heq with h2 _
        cases h2
      | cons c2 t2 =>
        rw [hk2, List.cons_append] at heq
        injection heq with h2 heq
        cases hk3 : t2 with
        | nil =>
          rw [hk3, List.nil_append] at heq
          injection heq with h3 _
          cases h3
        | cons c3 t3 =>
          rw [hk3, List.cons_append] at heq
          injection heq with h3 heq
          left
          rw [← heq]
          exact List.mem_append_right _ (List.mem_cons_self _ _)
  rcases hmem with hmem | hfalse
  · rw [Bool.eq_false_iff]
    intro htrue
    have := List.all_eq_true.mp htrue ':' hmem
    cases this
  · cases hfalse

/-- Matching the frontmatter pattern against a serialized non-empty mapping
succeeds with the joined lines as the group and an empty body. -/
theorem frontmatterMatch_serialized (m : Meta) (hwf : MetaWF m) (hm : m ≠ [])
    (hvals : ∀ kv ∈ m, stripChain kv.2 = kv.2) :
    frontmatterMatch (serializeFrontmatter m) =
      some (joinNl (m.map serializeLine), []) := by
  have hlfacts : ∀ l ∈ m.map serializeLine,
      l ≠ [] ∧ (l.all fun c => !(c = '\n')) = true ∧
      (∀ t, l = '-' :: '-' :: '-' :: t → t.all isPySpace = false) := by
    intro l hl
    rcases List.mem_map.mp hl with ⟨kv, hkv, hser⟩
    rcases (hwf.1 kv hkv) with ⟨hkwf, hvlb⟩
    subst hser
    refine ⟨serializeLine_ne_nil kv, ?_, serializeLine_guard⟩
    exact no_nl_of_no_lb (serializeLine_no_lb hkwf.2.2.2 hvlb)
  obtain ⟨kv0, rest0, hm0⟩ : ∃ kv0 rest0, m = kv0 :: rest0 := by
    cases m with
    | nil => exact absurd rfl hm
    | cons a b => exact ⟨a, b, rfl⟩
  have hkwf0 : KeyWF kv0.1 := (hwf.1 kv0 (by rw [hm0]; exact List.mem_cons_self _ _)).1
  unfold serializeFrontmatter frontmatterMatch
  have hshape : ('-' :: '-' :: '-' :: '\n' :: []) ++ joinNl (m.map serializeLine) ++
      ('\n' :: '-' :: '-' :: '-' :: '\n' :: []) =
      '-' :: '-' :: '-' :: '\n' :: (joinNl (m.map serializeLine) ++
        ('\n' :: '-' :: '-' :: '-' :: '\n' :: [])) := by
    simp
  rw [hshape]
  have hdw : ('-' :: '-' :: '-' :: '\n' :: (joinNl (m.map serializeLine) ++
      ('\n' :: '-' :: '-' :: '-' :: '\n' :: []))).dropWhile isPySpace =
      '-' :: '-' :: '-' :: '\n' :: (joinNl (m.map serializeLine) ++
        ('\n' :: '-' :: '-' :: '-' :: '\n' :: [])) := by
    rw [List.dropWhile_cons, if_neg (by simp [isPySpace])]
  rw [hdw]
  show tryCandidates (nlCandidates ('\n' :: (joinNl (m.map serializeLine) ++
    ('\n' :: '-' :: '-' :: '-' :: '\n' :: [])))) =
    some (joinNl (m.map serializeLine), [])
  have hJhead : ∀ c t, (joinNl (m.map serializeLine) ++
      ('\n' :: '-' :: '-' :: '-' :: '\n' :: [])) = c :: t → isPySpace c = false := by
    intro c t he
    have hj0 : joinNl (m.map serializeLine) =
        serializeLine kv0 ++ (match rest0.map serializeLine with
          | [] => ([] : List Char)
          | _ :: _ => '\n' :: joinNl (rest0.map serializeLine)) := by
      rw [hm0]
      cases rest0 with
      | nil => simp [joinNl]
      | cons kv1 rest1 => simp [joinNl]
    rw [hj0, List.append_assoc] at he
    refine serializedHead_not_space hkwf0
      (' ' :: kv0.2 ++ ((match rest0.map serializeLine with
        | [] => ([] : List Char)
        | _ :: _ => '\n' :: joinNl (rest0.map serializeLine)) ++
          ('\n' :: '-' :: '-' :: '-' :: '\n' :: []))) c t ?_
    rw [← he]
    simp [serializeLine]
  have hcand : nlCandidates ('\n' :: (joinNl (m.map serializeLine) ++
      ('\n' :: '-' :: '-' :: '-' :: '\n' :: []))) =
      [joinNl (m.map serializeLine) ++ ('\n' :: '-' :: '-' :: '-' :: '\n' :: [])] := by
    unfold nlCandidates
    rw [if_pos rfl, nlCandidates_nil hJhead]
    rfl
  rw [hcand]
  unfold tryCandidates
  rw [scanClose_joined (m.map serializeLine)
    (fun l hl => (hlfacts l hl).1)
    (fun l hl => (hlfacts l hl).2.1)
    (fun l hl => (hlfacts l hl).2.2) []]
  simp

/-- Inserting a fresh key appends. -/
theorem dictInsert_append {acc : Meta} {k v : List Char}
    (h : ¬ k ∈ acc.map Prod.fst) : dictInsert acc k v = acc ++ [(k, v)] := by
  induction acc with
  | nil => rfl
  | cons a rest ih =>
    unfold dictInsert
    rw [if_neg (by
      intro he
      exact h (by rw [← he]; exact List.mem_map_of_mem _ (List.mem_cons_self _ _)))]
    rw [ih (fun hmem => h (by
      rcases List.mem_map.mp hmem with ⟨kv2, hkv2, hf⟩
      exact List.mem_map.mpr ⟨kv2, List.mem_cons_of_mem _ hkv2, hf⟩))]
    rfl

/-- Folding the parser over the serialized lines of a duplicate-free mapping
appends the mapping to the accumulator. -/
theorem foldl_reconstruct (m : Meta)
    (hpl : ∀ kv ∈ m, parseKvLine (serializeLine kv) = some kv)
    (hnodup : (m.map Prod.fst).Nodup) :
    ∀ acc : Meta, (∀ kv ∈ m, ¬ kv.1 ∈ acc.map Prod.fst) →
      List.foldl
        (fun d line =>
          match parseKvLine line with
          | none => d
          | some (k, v) => dictInsert d k v) acc (m.map serializeLine) = acc ++ m := by
  induction m with
  | nil => intro acc _; simp
  | cons kv rest ih =>
    intro acc hfresh
    obtain ⟨k, v⟩ := kv
    rw [List.map_cons, List.foldl_cons, hpl (k, v) (List.mem_cons_self _ _)]
    have hstep : dictInsert acc k v = acc ++ [(k, v)] :=
      dictInsert_append (hfresh (k, v) (List.mem_cons_self _ _))
    rw [show (match some (k, v) with
      | none => acc
      | some (k, v) => dictInsert acc k v) = dictInsert acc k v from rfl, hstep]
    simp only [List.map_cons, List.nodup_cons] at hnodup
    rw [ih (fun x hx => hpl x (List.mem_cons_of_mem _ hx)) hnodup.2 (acc ++ [(k, v)])
      (fun x hx hmem => ?_)]
    · simp
    · rw [List.map_append] at hmem
      rcases List.mem_append.mp hmem with h1 | h1
      · exact hfresh x (List.mem_cons_of_mem _ hx) h1
      · simp only [List.map_cons, List.map_nil, List.mem_singleton] at h1
        exact hnodup.1 (h1 ▸ List.mem_map_of_mem _ hx)

/-- Re-parsing the serialized lines of a well-formed mapping with normalized
values reproduces the mapping. -/
theorem parse_yaml_kv_serialized (m : Meta) (hwf : MetaWF m)
    (hvals : ∀ kv ∈ m, stripChain kv.2 = kv.2) :
    parse_yaml_kv (joinNl (m.map serializeLine)) = m := by
  unfold parse_yaml_kv
  rw [pySplitlines_joinNl (m.map serializeLine)
    (fun l hl => by
      rcases List.mem_map.mp hl with ⟨kv, _, hser⟩
      exact hser ▸ serializeLine_ne_nil kv)
    (fun l hl => by
      rcases List.mem_map.mp hl with ⟨kv, hkv, hser⟩
      rcases hwf.1 kv hkv with ⟨hkwf, hvlb⟩
      exact hser ▸ serializeLine_no_lb hkwf.2.2.2 hvlb)]
  have := foldl_reconstruct m
    (fun kv hkv => parseKvLine_serialized (hwf.1 kv hkv).1 (hvals kv hkv))
    hwf.2 [] (by simp)
  simpa using this

/-- C6 (amended): parsing, re-serializing inside a `---` block and re-parsing
reproduces the metadata mapping exactly, provided no parsed value is altered
by a second pass of the value normalization (no value carries surrounding
whitespace or quote characters, which the strip chain would remove again). -/
theorem frontmatter_roundtrip (content : String)
    (hvals : ∀ kv ∈ (parse_frontmatter content.data).1, stripChain kv.2 = kv.2) :
    (parse_frontmatter (serializeFrontmatter (parse_frontmatter content.data).1)).1 =
      (parse_frontmatter content.data).1 := by
  have hwf := parse_frontmatter_wf content.data
  cases hm : (parse_frontmatter content.data).1 with
  | nil => rfl
  | cons kv0 rest0 =>
    rw [hm] at hwf hvals
    unfold parse_frontmatter
    rw [frontmatterMatch_serialized (kv0 :: rest0) hwf (by simp) hvals]
    exact parse_yaml_kv_serialized (kv0 :: rest0) hwf hvals

/-- C6 (counterexample): a document whose frontmatter line carries the value
single-quote double-quote `a` single-quote parses to the mapping sending
`title` to double-quote `a` (the strip of single quotes exposes a double
quote); re-serializing and re-parsing strips the exposed double quote and
yields `title` mapped to plain `a`, a different mapping. -/
theorem frontmatter_roundtrip_counterexample :
    (parse_frontmatter ("---\ntitle: \x27\"a\x27\n---\nrest").data).1 =
      [("title".data, '"' :: 'a' :: [])] ∧
    (parse_frontmatter (serializeFrontmatter
        (parse_frontmatter ("---\ntitle: \x27\"a\x27\n---\nrest").data).1)).1 =
      [("title".data, 'a' :: [])] ∧
    (parse_frontmatter (serializeFrontmatter
        (parse_frontmatter ("---\ntitle: \x27\"a\x27\n---\nrest").data).1)).1 ≠
      (parse_frontmatter ("---\ntitle: \x27\"a\x27\n---\nrest").data).1 := by
  have e1 : (parse_frontmatter ("---\ntitle: \x27\"a\x27\n---\nrest").data).1 =
      [("title".data, '"' :: 'a' :: [])] := rfl
  have e2 : (parse_frontmatter (serializeFrontmatter
      (parse_frontmatter ("---\ntitle: \x27\"a\x27\n---\nrest").data).1)).1 =
      [("title".data, 'a' :: [])] := rfl
  refine ⟨e1, e2, ?_⟩
  rw [e2, e1]
  decide

/-- Witness for the amended C6 at a concrete document whose values are
already fully normalized. -/
theorem frontmatter_roundtrip_witness :
    (parse_frontmatter
      (serializeFrontmatter
        (parse_frontmatter ("---\ntitle: hello\nservice_owner: bob\n---\nbody").data).1)).1 =
      (parse_frontmatter ("---\ntitle: hello\nservice_owner: bob\n---\nbody").data).1 :=
  frontmatter_roundtrip "---\ntitle: hello\nservice_owner: bob\n---\nbody" (by decide)

end Runbook
